import Mathlib

/-!
Shallow embedding of the content-analysis pipeline of the bilibili_analyzer
repository: the chunk engine (`ChunkProcessor`, `SimpleTokenCounter`), the
quota governor (`TokenManager`), the TTL+LRU cache (`MemoryCache`) and the
orchestrator (`ContentAnalyzer` / `AnalysisService`), together with theorems
settling the specification claims about them.

Text is modelled as `List Char`; Python floats (timestamps, costs) are
modelled as exact rationals `ℚ`; Python ints as `Int`/`Nat`.
-/

/-! ## Character classes used by the chunk engine -/

/-- Python `str.split()` / `str.strip()` whitespace (the ASCII subset that the
repository's inputs use). -/
def isSpacePy (c : Char) : Bool :=
  c == ' ' || c == '\t' || c == '\n' || c == '\r' || c == '\x0b' || c == '\x0c'

/-- The CJK test `'一' <= c <= '鿿'` from `SimpleTokenCounter.encode`. -/
def isCJKChar (c : Char) : Bool :=
  0x4e00 ≤ c.toNat && c.toNat ≤ 0x9fff

/-- The sentence terminators of the regex `[。！？\n]` used by
`ChunkProcessor._split_into_sentences` and `_find_sentence_end`. -/
def isSentenceSep (c : Char) : Bool :=
  c == '。' || c == '！' || c == '？' || c == '\n'

/-! ## SimpleTokenCounter -/

/-- `chinese_chars = len([c for c in text if '一' <= c <= '鿿'])`. -/
def chinese_chars (l : List Char) : Nat := l.countP isCJKChar

/-- Word counter: number of maximal nonspace runs, tracking whether the scan
is currently inside a word.  `pyWordsAux l b` counts the words of `l` given
that `b` says whether the character before `l` was a nonspace. -/
def pyWordsAux : List Char → Bool → Nat
  | [], _ => 0
  | c :: cs, inw =>
      if isSpacePy c then pyWordsAux cs false
      else (if inw then 0 else 1) + pyWordsAux cs true

/-- `len(text.split())` of Python. -/
def pyWords (l : List Char) : Nat := pyWordsAux l false

/-- `SimpleTokenCounter.encode`:
`int(chinese_chars * 2 + (len(text.split()) - chinese_chars) * 1.3)`.
The value equals `(7*chinese + 13*words) / 10`, which is nonnegative, so the
truncation `int(...)` is a floor; we compute it with exact rational
arithmetic (Python uses the float `1.3`). -/
def encode (l : List Char) : Nat :=
  (7 * chinese_chars l + 13 * pyWords l) / 10

/-- Python `str.strip()`. -/
def pyStrip (l : List Char) : List Char :=
  ((l.dropWhile isSpacePy).reverse.dropWhile isSpacePy).reverse

/-! ## ChunkProcessor -/

/-- The `TextChunk` dataclass (the unused `metadata` map is omitted). -/
structure TextChunk where
  content : List Char
  start_index : Nat
  end_index : Nat
deriving Repr, DecidableEq

/-- The `ChunkConfig` dataclass with its Python defaults. -/
structure ChunkConfig where
  max_tokens : Nat := 2000
  min_tokens : Nat := 100
  overlap_tokens : Nat := 200
  max_sentences : Nat := 50
  respect_sentence_boundaries : Bool := true
  semantic_chunking : Bool := true
deriving Repr

/-- `re.split(r'([。！？\n])', text)` followed by the pairing loop
`for i in range(0, len(sentences) - 1, 2)` of `_split_into_sentences`:
each emitted unit is a piece of text together with its terminator; the
trailing fragment after the last terminator is never paired, hence dropped.
`acc` is the text accumulated since the last terminator. -/
def rawUnits : List Char → List Char → List (List Char)
  | [], _ => []
  | c :: cs, acc =>
      if isSentenceSep c then (acc ++ [c]) :: rawUnits cs []
      else rawUnits cs (acc ++ [c])

/-- `ChunkProcessor._split_into_sentences`:
`[s.strip() for s in combined_sentences if s.strip()]`. -/
def split_into_sentences (text : List Char) : List (List Char) :=
  ((rawUnits text []).map pyStrip).filter (fun s => !s.isEmpty)

/-- The slicing loop `for i in range(0, len(sentence), target_chars)` of
`_split_long_sentence`.  For `target = 0` Python raises `ValueError`
(zero range step); the theorems below only reach this function with
`target ≥ 1`, where the model agrees with Python. -/
def sliceEvery (target : Nat) (s : List Char) : List (List Char) :=
  if h : target = 0 ∨ s = [] then []
  else (s.take target) :: sliceEvery target (s.drop target)
termination_by s.length
decreasing_by
  push_neg at h
  simp only [List.length_drop]
  have h1 : target ≠ 0 := h.1
  have h2 : s.length ≠ 0 := by
    intro hl
    exact h.2 (List.length_eq_zero.mp hl)
  omega

/-- `ChunkProcessor._split_long_sentence`:
`target_chars = int(len(sentence) * max_tokens / tokens)` (float division,
truncated; exact here since all quantities are nonnegative integers). -/
def split_long_sentence (cfg : ChunkConfig) (sentence : List Char) : List (List Char) :=
  if encode sentence ≤ cfg.max_tokens then [sentence]
  else sliceEvery (sentence.length * cfg.max_tokens / encode sentence) sentence

/-- The loop state of `_semantic_chunking`: emitted chunks, the pending
sentence list `current_chunk`, its token tally and the running character
offset `start_index`. -/
structure SemState where
  chunks : List TextChunk
  current : List (List Char)
  current_tokens : Nat
  start_index : Nat

/-- Flushing the pending chunk (`if current_chunk: chunks.append(...)`,
followed by resetting the accumulator and advancing `start_index`). -/
def flushCurrent (st : SemState) : SemState :=
  match st.current with
  | [] => st
  | _ =>
      let c := st.current.flatten
      { chunks := st.chunks ++ [⟨c, st.start_index, st.start_index + c.length⟩],
        current := [], current_tokens := 0, start_index := st.start_index + c.length }

/-- The `for sub_chunk in sub_chunks` emission loop of the force-split
branch of `_semantic_chunking`. -/
def emitPieces (st : SemState) (pieces : List (List Char)) : SemState :=
  pieces.foldl
    (fun st piece =>
      { st with
        chunks := st.chunks ++ [⟨piece, st.start_index, st.start_index + piece.length⟩],
        start_index := st.start_index + piece.length })
    st

/-- One iteration of the `for i, sentence in enumerate(sentences)` loop of
`_semantic_chunking`. -/
def semStep (cfg : ChunkConfig) (st : SemState) (sentence : List Char) : SemState :=
  let stoks := encode sentence
  if cfg.max_tokens < stoks then
    emitPieces (flushCurrent st) (split_long_sentence cfg sentence)
  else if st.current_tokens + stoks ≤ cfg.max_tokens then
    { st with current := st.current ++ [sentence],
              current_tokens := st.current_tokens + stoks }
  else
    let st2 := flushCurrent st
    { st2 with current := [sentence], current_tokens := stoks }

/-- The `for i, chunk in enumerate(chunks)` loop of `_add_overlap` for the
chunks after the first; `prev` is the untransformed predecessor
(`chunks[i - 1]` of the original list).  `max(0, len - overlap*3)` is the
truncated subtraction. -/
def add_overlap_go (cfg : ChunkConfig) (prev : TextChunk) : List TextChunk → List TextChunk
  | [] => []
  | c :: rest =>
      let ostart := prev.content.length - cfg.overlap_tokens * 3
      { content := prev.content.drop ostart ++ c.content,
        start_index := prev.start_index + ostart,
        end_index := c.end_index } :: add_overlap_go cfg c rest

/-- `ChunkProcessor._add_overlap`. -/
def add_overlap (cfg : ChunkConfig) : List TextChunk → List TextChunk
  | [] => []
  | c :: rest => c :: add_overlap_go cfg c rest

/-- `ChunkProcessor._semantic_chunking`. -/
def semantic_chunking (cfg : ChunkConfig) (text : List Char) : List TextChunk :=
  let sentences := split_into_sentences text
  let st := flushCurrent (sentences.foldl (semStep cfg) ⟨[], [], 0, 0⟩)
  if 0 < cfg.overlap_tokens then add_overlap cfg st.chunks else st.chunks

/-- Index of the last sentence terminator in a character list, if any
(`matches[-1]` of `_find_sentence_end`). -/
def lastSepIdx : List Char → Option Nat
  | [] => none
  | c :: cs =>
      match lastSepIdx cs with
      | some i => some (i + 1)
      | none => if isSentenceSep c then some 0 else none

/-- `ChunkProcessor._find_sentence_end` (`max(0, position-500)` look-back;
`last_match.end()` is one past the terminator's index). -/
def find_sentence_end (text : List Char) (position : Nat) : Nat :=
  let search_start := position - 500
  let substring := (text.drop search_start).take (position - search_start)
  match lastSepIdx substring with
  | some i => search_start + (i + 1)
  | none => position

/-- The `while current_position < len(text)` loop of `_simple_chunking`,
fuelled: with `max_tokens ≥ 1` every iteration advances the cursor by at
least one character, so `text.length + 1` iterations suffice (with
`max_tokens = 0` the Python loop itself never terminates). -/
def simple_chunking_go (cfg : ChunkConfig) (text : List Char) :
    Nat → Nat → List TextChunk
  | 0, _ => []
  | fuel + 1, current_position =>
      if text.length ≤ current_position then []
      else
        let remaining := text.drop current_position
        if encode remaining ≤ cfg.max_tokens then
          [⟨remaining, current_position, text.length⟩]
        else
          let ce0 := min (current_position + cfg.max_tokens * 3) text.length
          let chunk_end :=
            if cfg.respect_sentence_boundaries then
              let se := find_sentence_end text ce0
              if current_position + cfg.min_tokens * 3 < se then se else ce0
            else ce0
          ⟨(text.drop current_position).take (chunk_end - current_position),
            current_position, chunk_end⟩ ::
            simple_chunking_go cfg text fuel chunk_end

/-- `ChunkProcessor._simple_chunking`. -/
def simple_chunking (cfg : ChunkConfig) (text : List Char) : List TextChunk :=
  simple_chunking_go cfg text (text.length + 1) 0

/-- `ChunkProcessor.chunk_text` (with the repository's fallback
`SimpleTokenCounter` as the token counter). -/
def chunk_text (cfg : ChunkConfig) (text : List Char) : List TextChunk :=
  if cfg.semantic_chunking then semantic_chunking cfg text
  else simple_chunking cfg text

/-! ## TokenManager (utils/token_manager.py) -/

/-- The `TokenLimitType` enum. -/
inductive TokenLimitType where
  | daily
  | weekly
  | monthly
  | total
deriving Repr, DecidableEq

/-- The `TokenUsage` dataclass.  `content_hash` is `md5(content)`; the hash is
modelled by the hashed string itself (it is only ever stored, never compared). -/
structure TokenUsage where
  timestamp : ℚ
  tokens : ℤ
  cost : ℚ
  model : String
  task_type : String
  content_hash : String
deriving Repr, DecidableEq

/-- The `TokenLimit` dataclass (without the redundant `limit_type` tag). -/
structure TokenLimit where
  max_tokens : ℤ
  max_cost : ℚ
  reset_interval : ℚ
deriving Repr, DecidableEq

/-- Python float `%`: `a % b = a - b * floor(a / b)` (for `b > 0`). -/
def pyMod (a b : ℚ) : ℚ := a - b * ((a / b).floor : ℚ)

/-- Per-model / per-task running aggregates (`model_stats` / `task_stats`
dict values). -/
structure AggStats where
  total_tokens : ℤ
  total_cost : ℚ
  usage_count : ℕ
deriving Repr, DecidableEq

/-- The mutable state of a `TokenManager`.  The Python `limits` dict has
exactly the `DAILY`/`WEEKLY`/`MONTHLY` keys; looking up a missing key
(`TOTAL`) raises `KeyError`, hence the `Option`. -/
structure TokenManager where
  limits : TokenLimitType → Option TokenLimit
  usage_history : List TokenUsage
  model_stats : List (String × AggStats)
  task_stats : List (String × AggStats)

/-- `TokenManager.__init__` with its six ceiling parameters. -/
def mkTokenManager (daily_token_limit : ℤ := 100000) (daily_cost_limit : ℚ := 10)
    (weekly_token_limit : ℤ := 500000) (weekly_cost_limit : ℚ := 50)
    (monthly_token_limit : ℤ := 2000000) (monthly_cost_limit : ℚ := 200) :
    TokenManager where
  limits lt :=
    match lt with
    | .daily => some ⟨daily_token_limit, daily_cost_limit, 86400⟩
    | .weekly => some ⟨weekly_token_limit, weekly_cost_limit, 604800⟩
    | .monthly => some ⟨monthly_token_limit, monthly_cost_limit, 2592000⟩
    | .total => none
  usage_history := []
  model_stats := []
  task_stats := []

/-- `TokenManager._get_period_usage`: the `(tokens, cost)` sums over the
records with `period_start <= usage.timestamp < now` where
`period_start = now - (now % limit.reset_interval)`. -/
def get_period_usage (history : List TokenUsage) (limit : TokenLimit) (now : ℚ) :
    ℤ × ℚ :=
  let period_start := now - pyMod now limit.reset_interval
  let period_usage := history.filter
    (fun u => decide (period_start ≤ u.timestamp ∧ u.timestamp < now))
  ((period_usage.map (fun u => u.tokens)).sum,
   (period_usage.map (fun u => u.cost)).sum)

/-- `TokenManager.check_limit` (`none` models the `KeyError` raised on a
limit type with no configured window, i.e. `TOTAL`). -/
def check_limit (mgr : TokenManager) (tokens : ℤ) (cost : ℚ)
    (limit_type : TokenLimitType) (now : ℚ) : Option Bool :=
  (mgr.limits limit_type).map fun limit =>
    let current_usage := get_period_usage mgr.usage_history limit now
    if limit.max_tokens < current_usage.1 + tokens then false
    else if limit.max_cost < current_usage.2 + cost then false
    else true

/-- The `stats[key] += ...` update on the per-model / per-task dicts
(insert-or-update keeping dict position). -/
def bumpStats (stats : List (String × AggStats)) (key : String)
    (tokens : ℤ) (cost : ℚ) : List (String × AggStats) :=
  match stats with
  | [] => [(key, ⟨tokens, cost, 1⟩)]
  | (k, s) :: rest =>
      if k = key then
        (k, ⟨s.total_tokens + tokens, s.total_cost + cost, s.usage_count + 1⟩) :: rest
      else (k, s) :: bumpStats rest key tokens cost

/-- `TokenManager.record_usage` followed by `_cleanup_old_data` (drop records
older than 30 days).  The content hash argument stands for
`md5(content)`. -/
def record_usage (mgr : TokenManager) (tokens : ℤ) (cost : ℚ)
    (model task_type content_hash : String) (now : ℚ) : TokenManager :=
  let usage : TokenUsage := ⟨now, tokens, cost, model, task_type, content_hash⟩
  let history := mgr.usage_history ++ [usage]
  let cutoff := now - 30 * 86400
  { mgr with
    usage_history := history.filter (fun u => decide (cutoff ≤ u.timestamp)),
    model_stats := bumpStats mgr.model_stats model tokens cost,
    task_stats := bumpStats mgr.task_stats task_type tokens cost }

/-- The static price table of `TokenManager.estimate_cost` (USD per 1K
tokens). -/
def model_costs : List (String × ℚ) :=
  [("gpt-3.5-turbo", 2/1000),
   ("gpt-4", 6/100),
   ("gpt-4-turbo", 3/100),
   ("gpt-4o", 15/1000),
   ("claude-3-haiku", 25/100000),
   ("claude-3-sonnet", 3/1000),
   ("claude-3-opus", 15/1000)]

/-- Association-list lookup with a default (`dict.get(model, 0.01)`). -/
def lookupCost : List (String × ℚ) → String → ℚ
  | [], _ => 1/100
  | (k, v) :: rest, m => if k = m then v else lookupCost rest m

/-- `TokenManager.estimate_cost`: `(tokens / 1000) * cost_per_1k`
(exact rational arithmetic for Python's float math). -/
def estimate_cost (tokens : ℤ) (model : String) : ℚ :=
  ((tokens : ℚ) / 1000) * lookupCost model_costs model

/-- The hard-coded `models` list of `get_model_recommendation`, in its
source order. -/
def recommendation_models : List (String × ℚ) :=
  [("gpt-3.5-turbo", 2/1000),
   ("claude-3-haiku", 25/100000),
   ("gpt-4o", 15/1000),
   ("claude-3-sonnet", 3/1000),
   ("gpt-4-turbo", 3/100),
   ("gpt-4", 6/100),
   ("claude-3-opus", 15/1000)]

/-- The scan loop of `get_model_recommendation`. -/
def recommendGo (tokens : ℤ) (budget : ℚ) : List (String × ℚ) → String
  | [] => "gpt-3.5-turbo"
  | (model, cost_per_1k) :: rest =>
      if ((tokens : ℚ) / 1000) * cost_per_1k ≤ budget then model
      else recommendGo tokens budget rest

/-- `TokenManager.get_model_recommendation`. -/
def get_model_recommendation (tokens : ℤ) (budget : ℚ) : String :=
  recommendGo tokens budget recommendation_models

/-! ## MemoryCache (cache/__init__.py) -/

/-- The `CacheEntry` dataclass.  `value` holds the serialized value;
`pickle.dumps`/`loads` round-trips, so serialization is modelled as the
identity and `value` keeps its type. -/
structure CacheEntry (α : Type) where
  key : String
  value : α
  created_at : ℚ
  ttl : ℤ
  access_count : ℕ := 0
  last_access : ℚ := 0
deriving Repr, DecidableEq

/-- `CacheEntry.is_expired`: `time.time() - created_at > ttl`. -/
def is_expired {α : Type} (e : CacheEntry α) (now : ℚ) : Bool :=
  decide ((e.ttl : ℚ) < now - e.created_at)

/-- `CacheConfig` with its Python defaults. -/
structure CacheConfig where
  max_size : ℕ := 1000
  default_ttl : ℤ := 3600
  cleanup_interval : ℚ := 300
  enable_compression : Bool := true
  enable_stats : Bool := true
deriving Repr, DecidableEq

structure CacheStats where
  hits : ℕ := 0
  misses : ℕ := 0
  sets : ℕ := 0
  deletes : ℕ := 0
  evictions : ℕ := 0
deriving Repr, DecidableEq

/-- The state of a `MemoryCache`.  The Python `dict` is modelled as an
insertion-ordered association list (Python dicts preserve insertion order,
and re-assignment keeps the original position). -/
structure MemoryCache (α : Type) where
  config : CacheConfig
  entries : List (String × CacheEntry α)
  stats : CacheStats := {}
  last_cleanup : ℚ

/-- `MemoryCache.__init__` at wall-clock time `now`. -/
def mkMemoryCache {α : Type} (config : CacheConfig) (now : ℚ) : MemoryCache α :=
  { config := config, entries := [], last_cleanup := now }

def lookupEntry {α : Type} : List (String × CacheEntry α) → String → Option (CacheEntry α)
  | [], _ => none
  | (k, e) :: rest, key => if k = key then some e else lookupEntry rest key

/-- Dict assignment `self.cache[key] = entry`: update in place if present,
else append. -/
def putEntry {α : Type} : List (String × CacheEntry α) → String → CacheEntry α →
    List (String × CacheEntry α)
  | [], key, e => [(key, e)]
  | (k, e0) :: rest, key, e =>
      if k = key then (k, e) :: rest else (k, e0) :: putEntry rest key e

def removeEntry {α : Type} : List (String × CacheEntry α) → String →
    List (String × CacheEntry α)
  | [], _ => []
  | (k, e0) :: rest, key =>
      if k = key then rest else (k, e0) :: removeEntry rest key

/-- `MemoryCache._delete_entry` (no-op when the key is absent). -/
def delete_entry {α : Type} (c : MemoryCache α) (key : String) : MemoryCache α :=
  match lookupEntry c.entries key with
  | none => c
  | some _ =>
      { c with entries := removeEntry c.entries key,
               stats := { c.stats with deletes := c.stats.deletes + 1 } }

/-- First key attaining the minimum `last_access`
(`min(self.cache.keys(), key=...)` returns the earliest minimum in
iteration order). -/
def lruKeyGo {α : Type} (best : String × CacheEntry α) :
    List (String × CacheEntry α) → String
  | [] => best.1
  | (k, e) :: rest =>
      if e.last_access < best.2.last_access then lruKeyGo (k, e) rest
      else lruKeyGo best rest

def lruKey {α : Type} : List (String × CacheEntry α) → Option String
  | [] => none
  | p :: rest => some (lruKeyGo p rest)

/-- `MemoryCache._evict_lru`. -/
def evict_lru {α : Type} (c : MemoryCache α) : MemoryCache α :=
  match lruKey c.entries with
  | none => c
  | some k =>
      let c2 := delete_entry c k
      { c2 with stats := { c2.stats with evictions := c2.stats.evictions + 1 } }

/-- `MemoryCache.cleanup`: collect the expired keys, then delete each
(equivalently, filter them all out and count them as deletes). -/
def cleanup {α : Type} (c : MemoryCache α) (now : ℚ) : MemoryCache α :=
  let expired := c.entries.filter (fun p => is_expired p.2 now)
  { c with entries := c.entries.filter (fun p => !is_expired p.2 now),
           stats := { c.stats with deletes := c.stats.deletes + expired.length } }

/-- `MemoryCache._periodic_cleanup`. -/
def periodic_cleanup {α : Type} (c : MemoryCache α) (now : ℚ) : MemoryCache α :=
  if c.config.cleanup_interval < now - c.last_cleanup then
    { cleanup c now with last_cleanup := now }
  else c

/-- `MemoryCache.get`, returning the value (if any) and the updated cache
state. -/
def memGet {α : Type} (c : MemoryCache α) (key : String) (now : ℚ) :
    Option α × MemoryCache α :=
  let c := periodic_cleanup c now
  match lookupEntry c.entries key with
  | none => (none, { c with stats := { c.stats with misses := c.stats.misses + 1 } })
  | some e =>
      if is_expired e now then
        let c2 := delete_entry c key
        (none, { c2 with stats := { c2.stats with misses := c2.stats.misses + 1 } })
      else
        let e2 := { e with access_count := e.access_count + 1, last_access := now }
        (some e.value,
         { c with entries := putEntry c.entries key e2,
                  stats := { c.stats with hits := c.stats.hits + 1 } })

/-- `MemoryCache.set`.  `ttl or self.config.default_ttl` falls back to the
default both for `None` and for a zero ttl (Python falsiness). -/
def memSet {α : Type} (c : MemoryCache α) (key : String) (value : α)
    (ttl : Option ℤ) (now : ℚ) : MemoryCache α :=
  let c := if c.config.max_size ≤ c.entries.length then evict_lru c else c
  let t := match ttl with
    | none => c.config.default_ttl
    | some t => if t = 0 then c.config.default_ttl else t
  let entry : CacheEntry α :=
    { key := key, value := value, created_at := now, ttl := t }
  { c with entries := putEntry c.entries key entry,
           stats := { c.stats with sets := c.stats.sets + 1 } }

/-! ## ContentAnalyzer (analyzers/content_analyzer.py)

The LLM gateway is modelled by a script: the list of outcomes of the
successive `llm_manager.chat` calls, consumed in order (an `err` entry is a
raised provider exception; an exhausted script also raises).  Every function
additionally returns the trace of observable effects: outbound LLM calls and
quota checks. -/

/-- Outcome of one `chat` call: the response `(content, tokens_used, cost)`
(the unused `latency` field is omitted), or a raised exception. -/
inductive ChatOutcome where
  | ok (content : String) (tokens_used : ℤ) (cost : ℚ)
  | err
deriving Repr, DecidableEq

abbrev Script := List ChatOutcome

/-- Observable effects of the analysis flow. -/
inductive AEvent where
  | llmCall
  | quotaCheck
deriving Repr, DecidableEq

/-- A `knowledge_entries` element `{title, content, type, importance, tags}`. -/
structure KnowledgeEntryD where
  title : String
  content : String
  type : String
  importance : ℤ
  tags : List String
deriving Repr, DecidableEq

/-- A per-chunk analysis result: the parsed response dict after
`result['tokens_used'] = ...; result['cost'] = ...`.  (The merged dict built
by `_merge_analysis_results` carries no `tokens_used`/`cost` keys; there the
two fields hold `0`, the default every reader `dict.get` would supply.) -/
structure ChunkResultD where
  summary : String
  key_points : List String
  categories : List String
  tags : List String
  knowledge_entries : List KnowledgeEntryD
  tokens_used : ℤ
  cost : ℚ
deriving Repr, DecidableEq

/-- The `AnalysisConfig` dataclass with its Python defaults (`model_config`
is unused by the analysis flow and omitted). -/
structure AnalysisConfig where
  enable_chunking : Bool := true
  max_tokens_per_chunk : ℕ := 2000
  enable_caching : Bool := true
  cache_ttl : ℤ := 3600
  enable_knowledge_extraction : Bool := true
  max_knowledge_entries : ℕ := 20
deriving Repr

/-- The `AnalysisResult` dataclass. -/
structure AnalysisResultD where
  summary : String
  key_points : List String
  categories : List String
  tags : List String
  knowledge_entries : List KnowledgeEntryD
  total_tokens : ℤ
  total_cost : ℚ
  analysis_time : ℚ
  model_used : String
  chunk_count : ℕ
deriving Repr, DecidableEq

/-- The orchestrator's chunk cache `self.cache`, keyed by
`md5(f"{text}:{service_name or 'default'}")`; the key is modelled by the
hashed pair itself.  (The parallel `cache_timestamps` dict feeds only
`cleanup_cache`, which the analysis flow never calls; it is omitted.) -/
abbrev ChunkCache := List ((List Char × Option String) × ChunkResultD)

def chunkCacheLookup : ChunkCache → (List Char × Option String) → Option ChunkResultD
  | [], _ => none
  | (k, r) :: rest, key => if k = key then some r else chunkCacheLookup rest key

def chunkCachePut : ChunkCache → (List Char × Option String) → ChunkResultD → ChunkCache
  | [], key, r => [(key, r)]
  | (k, r0) :: rest, key, r =>
      if k = key then (k, r) :: rest else (k, r0) :: chunkCachePut rest key r

/-- `ContentAnalyzer._analyze_chunk`.  `parse` is the composite response
parser `json.loads`-with-`_parse_fallback_response` (which never raises);
the analysis-claim theorems hold for every such parser.  Returns the result
(or the propagated chat exception), the updated cache, the rest of the
script, and the effect trace. -/
def analyze_chunk (cfg : AnalysisConfig) (parse : String → ChunkResultD)
    (cache : ChunkCache) (script : Script)
    (content : List Char) (service_name : Option String) :
    Except Unit ChunkResultD × ChunkCache × Script × List AEvent :=
  let key := (content, service_name)
  match (if cfg.enable_caching then chunkCacheLookup cache key else none) with
  | some r => (.ok r, cache, script, [])
  | none =>
      match script with
      | .ok rcontent rtokens rcost :: rest =>
          let result := { parse rcontent with tokens_used := rtokens, cost := rcost }
          let cache2 := if cfg.enable_caching then chunkCachePut cache key result else cache
          (.ok result, cache2, rest, [.llmCall])
      | .err :: rest => (.error (), cache, rest, [.llmCall])
      | [] => (.error (), cache, [], [.llmCall])

/-- The `for i, chunk in enumerate(chunks)` loop of `analyze_subtitle`:
sequentially analyze each chunk, accumulating `total_tokens += ...` and
`total_cost += ...`; a chunk failure aborts the whole request. -/
def analyze_chunks_loop (cfg : AnalysisConfig) (parse : String → ChunkResultD)
    (cache : ChunkCache) (script : Script)
    (chunks : List (List Char)) (service_name : Option String) :
    Except Unit (List ChunkResultD × ℤ × ℚ) × ChunkCache × Script × List AEvent :=
  match chunks with
  | [] => (.ok ([], 0, 0), cache, script, [])
  | c :: cs =>
      match analyze_chunk cfg parse cache script c service_name with
      | (.error e, cache2, script2, ev) => (.error e, cache2, script2, ev)
      | (.ok r, cache2, script2, ev) =>
          match analyze_chunks_loop cfg parse cache2 script2 cs service_name with
          | (.error e, cache3, script3, evs) => (.error e, cache3, script3, ev ++ evs)
          | (.ok (rs, tt, tc), cache3, script3, evs) =>
              (.ok (r :: rs, r.tokens_used + tt, r.cost + tc),
               cache3, script3, ev ++ evs)

/-- `ContentAnalyzer._merge_summaries`.  With a single summary, return it;
otherwise issue the consolidation chat call, falling back to
`summaries[0]` on exception.  (On an empty summary list the fallback would
itself raise `IndexError`; `""` stands in — the flow only ever reaches it
with at least two summaries.) -/
def merge_summaries (script : Script) (summaries : List String) :
    String × Script × List AEvent :=
  match summaries with
  | [s] => (s, script, [])
  | _ =>
      match script with
      | .ok rcontent _ _ :: rest => (rcontent, rest, [.llmCall])
      | .err :: rest => (summaries.headD "", rest, [.llmCall])
      | [] => (summaries.headD "", [], [.llmCall])

/-- `ContentAnalyzer._deduplicate_key_points`: first-seen-wins dedup on the
lower-cased, stripped point, discarding keys of length ≤ 10. -/
def dedupKeyPointsGo (seen : List String) : List String → List String
  | [] => []
  | p :: rest =>
      let key := String.mk (pyStrip (p.data.map Char.toLower))
      if key ∉ seen ∧ 10 < key.length then
        p :: dedupKeyPointsGo (key :: seen) rest
      else dedupKeyPointsGo seen rest

def deduplicate_key_points (points : List String) : List String :=
  dedupKeyPointsGo [] points

/-- `set.update` over the result lists; Python set iteration order is
unspecified, modelled as first-insertion order. -/
def setUnion (ls : List (List String)) : List String :=
  ls.flatten.foldl (fun acc s => if s ∈ acc then acc else acc ++ [s]) []

/-- Stable insertion into a descending-by-importance list: the new element
goes before the first element whose importance is not larger. -/
def insertDescByImportance (e : KnowledgeEntryD) :
    List KnowledgeEntryD → List KnowledgeEntryD
  | [] => [e]
  | x :: xs =>
      if e.importance < x.importance then x :: insertDescByImportance e xs
      else e :: x :: xs

/-- Stable descending insertion sort (insertion order preserved among equal
importances, like Python's stable `list.sort(..., reverse=True)`). -/
def sortDescByImportance : List KnowledgeEntryD → List KnowledgeEntryD
  | [] => []
  | x :: xs => insertDescByImportance x (sortDescByImportance xs)

/-- `ContentAnalyzer._filter_knowledge_entries`: keep `importance ≥ 3`, sort
by importance descending (stably). -/
def filter_knowledge_entries (entries : List KnowledgeEntryD) : List KnowledgeEntryD :=
  sortDescByImportance (entries.filter (fun e => decide (3 ≤ e.importance)))

/-- `ContentAnalyzer._merge_analysis_results`. -/
def merge_analysis_results (cfg : AnalysisConfig) (script : Script)
    (results : List ChunkResultD) : ChunkResultD × Script × List AEvent :=
  match results with
  | [r] => (r, script, [])
  | _ =>
      let all_summaries := results.map (fun r => r.summary)
      let all_key_points := (results.map (fun r => r.key_points)).flatten
      let all_categories := setUnion (results.map (fun r => r.categories))
      let all_tags := setUnion (results.map (fun r => r.tags))
      let all_knowledge := (results.map (fun r => r.knowledge_entries)).flatten
      let all_knowledge :=
        if cfg.enable_knowledge_extraction then filter_knowledge_entries all_knowledge
        else all_knowledge
      let (merged_summary, script2, ev) := merge_summaries script all_summaries
      let unique_key_points := deduplicate_key_points all_key_points
      ({ summary := merged_summary,
         key_points := unique_key_points.take 10,
         categories := all_categories.take 5,
         tags := all_tags.take 15,
         knowledge_entries := all_knowledge.take cfg.max_knowledge_entries,
         tokens_used := 0, cost := 0 },
       script2, ev)

/-- The chunk-analysis stage of `ContentAnalyzer.analyze_subtitle`: the
per-chunk loop, the merge, and the composition of the final
`AnalysisResult` (wall-clock `analysis_time` and the resolved service's
`model_used` are environment inputs). -/
def analyze_subtitle_core (cfg : AnalysisConfig) (parse : String → ChunkResultD)
    (cache : ChunkCache) (script : Script)
    (chunks : List (List Char)) (service_name : Option String)
    (analysis_time : ℚ) (model_used : String) :
    Except Unit AnalysisResultD × ChunkCache × Script × List AEvent :=
  match analyze_chunks_loop cfg parse cache script chunks service_name with
  | (.error e, cache2, script2, evs) => (.error e, cache2, script2, evs)
  | (.ok (results, total_tokens, total_cost), cache2, script2, evs) =>
      let (merged, script3, ev2) := merge_analysis_results cfg script2 results
      (.ok { summary := merged.summary,
             key_points := merged.key_points,
             categories := merged.categories,
             tags := merged.tags,
             knowledge_entries := merged.knowledge_entries,
             total_tokens := total_tokens,
             total_cost := total_cost,
             analysis_time := analysis_time,
             model_used := model_used,
             chunk_count := chunks.length },
       cache2, script3, evs ++ ev2)

/-- `ContentAnalyzer.analyze_subtitle`.  `pre` models
`TextPreprocessor.preprocess_subtitle` (pure; outside the claims);
the chunk processor is constructed as in `ContentAnalyzer.__init__`:
`ChunkConfig(max_tokens=config.max_tokens_per_chunk)`, all other chunk
parameters at their defaults. -/
def analyze_subtitle (cfg : AnalysisConfig) (parse : String → ChunkResultD)
    (pre : String → String) (cache : ChunkCache) (script : Script)
    (subtitle_content : String) (service_name : Option String)
    (analysis_time : ℚ) (model_used : String) :
    Except Unit AnalysisResultD × ChunkCache × Script × List AEvent :=
  let processed := pre subtitle_content
  let chunks :=
    if cfg.enable_chunking then
      (chunk_text { max_tokens := cfg.max_tokens_per_chunk } processed.data).map
        (fun c => c.content)
    else [processed.data]
  analyze_subtitle_core cfg parse cache script chunks service_name
    analysis_time model_used

/-! ## AnalysisService (services/analysis.py) -/

/-- `AnalysisService._estimate_tokens` — the same heuristic formula as
`SimpleTokenCounter.encode`. -/
def service_estimate_tokens (content : String) : ℤ :=
  (encode content.data : ℤ)

/-- Error kinds surfaced by `AnalysisService.analyze_subtitle_content`:
the quota `ValueError` versus a propagated analyzer failure. -/
inductive ServiceError where
  | quotaExceeded
  | analysisFailed
deriving Repr, DecidableEq

/-- `AnalysisService.analyze_subtitle_content`: estimate tokens and cost for
the whole content, gate on `token_manager.check_limit` (daily window),
then run the analyzer and record the usage.  `none` from `check_limit`
(a `KeyError`) also aborts.  The trace starts with the quota check. -/
def analyze_subtitle_content (mgr : TokenManager) (cfg : AnalysisConfig)
    (parse : String → ChunkResultD) (pre : String → String)
    (cache : ChunkCache) (script : Script)
    (content : String) (service_name : Option String)
    (analysis_time : ℚ) (model_used : String) (now : ℚ) :
    Except ServiceError AnalysisResultD × TokenManager × ChunkCache × Script × List AEvent :=
  let estimated_tokens := service_estimate_tokens content
  let estimated_cost := estimate_cost estimated_tokens "gpt-3.5-turbo"
  match check_limit mgr estimated_tokens estimated_cost .daily now with
  | some true =>
      match analyze_subtitle cfg parse pre cache script content service_name
              analysis_time model_used with
      | (.error _, cache2, script2, evs) =>
          (.error .analysisFailed, mgr, cache2, script2, .quotaCheck :: evs)
      | (.ok result, cache2, script2, evs) =>
          let mgr2 := record_usage mgr result.total_tokens result.total_cost
            result.model_used "subtitle_analysis" (String.mk (content.data.take 100)) now
          (.ok result, mgr2, cache2, script2, .quotaCheck :: evs)
  | _ => (.error .quotaExceeded, mgr, cache, script, [.quotaCheck])

/-- A concrete response parser used to instantiate the analysis theorems on
closed inputs: the whole response text becomes the summary. -/
def parseSummaryOnly : String → ChunkResultD :=
  fun s => ⟨s, [], [], [], [], 0, 0⟩

/-! ## Lemmas: the token heuristic on concatenations -/

/-- Whether a scan that processed `l` starting in word-state `s` ends inside
a word. -/
def endState : List Char → Bool → Bool
  | [], s => s
  | c :: cs, _ => endState cs (!isSpacePy c)

/-- A nonempty string with no leading and no trailing whitespace
(the shape of every unit produced by `_split_into_sentences`). -/
def Stripped (l : List Char) : Prop :=
  l ≠ [] ∧ (∀ c, l.head? = some c → isSpacePy c = false) ∧
    (∀ c, l.getLast? = some c → isSpacePy c = false)

/-- The scaled token value `7*chinese + 13*words`; `encode l = tokenVal l / 10`. -/
def tokenVal (l : List Char) : ℕ := 7 * chinese_chars l + 13 * pyWords l

/-- A chunk content admissible for `_semantic_chunking` over the sentence
list `S`: within the token budget, or a force-split piece of an over-long
sentence of `S`. -/
def SemContentOK (cfg : ChunkConfig) (S : List (List Char)) (content : List Char) : Prop :=
  encode content ≤ cfg.max_tokens ∨
    ∃ s ∈ S, cfg.max_tokens < encode s ∧ content ∈ split_long_sentence cfg s

/-- The chunks tile `[n, …)` contiguously with nonempty contents. -/
def ChunksTile : ℕ → List TextChunk → Prop
  | _, [] => True
  | n, c :: cs =>
      c.start_index = n ∧ c.end_index = n + c.content.length ∧
        c.content ≠ [] ∧ ChunksTile c.end_index cs

/-- All text owned by a chunking state: emitted chunks plus the pending
accumulator. -/
def semText (st : SemState) : List Char :=
  (st.chunks.map (fun c => c.content)).flatten ++ st.current.flatten

/-- Invariant of the `_semantic_chunking` loop state. -/
def SemInv (cfg : ChunkConfig) (S : List (List Char)) (st : SemState) : Prop :=
  (∀ ch ∈ st.chunks, SemContentOK cfg S ch.content) ∧
  (∀ s ∈ st.current, Stripped s ∧ s ∈ S) ∧
  st.current_tokens = (st.current.map encode).sum ∧
  st.current_tokens ≤ cfg.max_tokens ∧
  ChunksTile 0 st.chunks ∧
  st.start_index = ((st.chunks.map (fun c => c.content)).flatten).length



theorem pyWordsAux_append (a b : List Char) (s : Bool) :
    pyWordsAux (a ++ b) s = pyWordsAux a s + pyWordsAux b (endState a s) := by
  induction a generalizing s with
  | nil => simp [pyWordsAux, endState]
  | cons c cs ih =>
      by_cases h : isSpacePy c = true
      · simp [pyWordsAux, endState, h, ih]
      · simp only [Bool.not_eq_true] at h
        simp [pyWordsAux, endState, h, ih]
        omega

theorem endState_eq_true (a : List Char) (s : Bool)
    (hne : a ≠ []) (hlast : ∀ c, a.getLast? = some c → isSpacePy c = false) :
    endState a s = true := by
  induction a generalizing s with
  | nil => exact absurd rfl hne
  | cons c cs ih =>
      cases cs with
      | nil =>
          have hc := hlast c rfl
          simp [endState, hc]
      | cons d ds =>
          have hl2 : ∀ e, (d :: ds).getLast? = some e → isSpacePy e = false := by
            intro e he
            exact hlast e (by simpa [List.getLast?_cons_cons] using he)
          show endState (d :: ds) (!isSpacePy c) = true
          exact ih (!isSpacePy c) (by simp) hl2

theorem pyWordsAux_false_eq (c : Char) (cs : List Char) (h : isSpacePy c = false) :
    pyWordsAux (c :: cs) false = pyWordsAux (c :: cs) true + 1 := by
  simp [pyWordsAux, h]
  omega

theorem pyWords_append_stripped (a b : List Char)
    (ha : Stripped a) (hb : Stripped b) :
    pyWords (a ++ b) + 1 = pyWords a + pyWords b := by
  obtain ⟨hane, _, halast⟩ := ha
  obtain ⟨hbne, hbhead, _⟩ := hb
  have hend : endState a false = true := endState_eq_true a false hane halast
  cases b with
  | nil => exact absurd rfl hbne
  | cons c cs =>
      have hc : isSpacePy c = false := hbhead c rfl
      unfold pyWords
      rw [pyWordsAux_append, hend, pyWordsAux_false_eq c cs hc]
      omega

theorem chinese_chars_append (a b : List Char) :
    chinese_chars (a ++ b) = chinese_chars a + chinese_chars b := by
  simp [chinese_chars, List.countP_append]

theorem tokenVal_append (a b : List Char) (ha : Stripped a) (hb : Stripped b) :
    tokenVal (a ++ b) + 13 = tokenVal a + tokenVal b := by
  have hw := pyWords_append_stripped a b ha hb
  have hc := chinese_chars_append a b
  unfold tokenVal
  rw [hc]
  omega

theorem Stripped_append (a b : List Char) (ha : Stripped a) (hb : Stripped b) :
    Stripped (a ++ b) := by
  obtain ⟨hane, hahead, _⟩ := ha
  obtain ⟨hbne, _, hblast⟩ := hb
  refine ⟨by simp [hane], ?_, ?_⟩
  · intro c hc
    cases a with
    | nil => exact absurd rfl hane
    | cons x xs =>
        apply hahead
        simpa using hc
  · intro c hc
    apply hblast
    rwa [List.getLast?_append_of_ne_nil a hbne] at hc

theorem tokenVal_flatten (ss : List (List Char)) (s : List Char)
    (hs : Stripped s) (hss : ∀ t ∈ ss, Stripped t) :
    tokenVal ((s :: ss).flatten) + 13 * ss.length
      = tokenVal s + (ss.map tokenVal).sum ∧ Stripped ((s :: ss).flatten) := by
  induction ss generalizing s with
  | nil => simpa using hs
  | cons t ts ih =>
      have ht : Stripped t := hss t (by simp)
      have hts : ∀ u ∈ ts, Stripped u := fun u hu => hss u (by simp [hu])
      obtain ⟨ihval, ihstr⟩ := ih t ht hts
      have hflat : (s :: t :: ts).flatten = s ++ (t :: ts).flatten := by
        simp
      constructor
      · have happ := tokenVal_append s ((t :: ts).flatten) hs ihstr
        rw [hflat]
        simp only [List.length_cons, List.map_cons, List.sum_cons] at ihval ⊢
        omega
      · rw [hflat]
        exact Stripped_append _ _ hs ihstr

theorem tokenVal_le_encode (l : List Char) : tokenVal l ≤ 10 * encode l + 9 := by
  have h := Nat.div_add_mod (tokenVal l) 10
  have h2 : tokenVal l % 10 < 10 := Nat.mod_lt _ (by norm_num)
  unfold encode
  unfold tokenVal at h ⊢
  omega

theorem sum_tokenVal_le (ss : List (List Char)) :
    (ss.map tokenVal).sum ≤ 10 * (ss.map encode).sum + 9 * ss.length := by
  induction ss with
  | nil => simp
  | cons s ts ih =>
      have := tokenVal_le_encode s
      simp only [List.map_cons, List.sum_cons, List.length_cons]
      omega

/-- Key bound: a chunk accumulated from stripped sentences whose individual
token estimates sum to at most `T` itself estimates to at most `T`
(concatenation only merges words across the seams). -/
theorem encode_flatten_le (ss : List (List Char)) (T : ℕ)
    (hss : ∀ s ∈ ss, Stripped s) (hsum : (ss.map encode).sum ≤ T) :
    encode ss.flatten ≤ T := by
  cases ss with
  | nil =>
      simp [encode, chinese_chars, pyWords, pyWordsAux]
  | cons s ts =>
      have hs : Stripped s := hss s (by simp)
      have hts : ∀ t ∈ ts, Stripped t := fun t ht => hss t (by simp [ht])
      obtain ⟨hval, _⟩ := tokenVal_flatten ts s hs hts
      have h1 : (ts.map tokenVal).sum ≤ 10 * (ts.map encode).sum + 9 * ts.length :=
        sum_tokenVal_le ts
      have h2 : tokenVal s ≤ 10 * encode s + 9 := tokenVal_le_encode s
      simp only [List.map_cons, List.sum_cons] at hsum
      have hJ : tokenVal ((s :: ts).flatten) ≤ 10 * T + 9 := by omega
      have : tokenVal ((s :: ts).flatten) / 10 < T + 1 := by
        rw [Nat.div_lt_iff_lt_mul (by norm_num : (0:ℕ) < 10)]
        omega
      unfold encode
      unfold tokenVal at this
      omega

/-! ## Lemmas: stripping and sentence splitting -/

theorem head?_dropWhile_not (p : Char → Bool) (l : List Char) :
    ∀ c, (l.dropWhile p).head? = some c → p c = false := by
  induction l with
  | nil => intro c hc; simp [List.dropWhile] at hc
  | cons x xs ih =>
      intro c hc
      by_cases hx : p x = true
      · exact ih c (by simpa [List.dropWhile, hx] using hc)
      · simp only [Bool.not_eq_true] at hx
        simp [List.dropWhile, hx] at hc
        rw [hc] at hx
        exact hx

theorem getLast?_dropWhile (p : Char → Bool) (l : List Char)
    (h : l.dropWhile p ≠ []) : (l.dropWhile p).getLast? = l.getLast? := by
  induction l with
  | nil => simp [List.dropWhile] at h
  | cons x xs ih =>
      by_cases hx : p x = true
      · have hd : (x :: xs).dropWhile p = xs.dropWhile p := by
          simp [List.dropWhile, hx]
        rw [hd] at h ⊢
        rw [ih h]
        cases xs with
        | nil => simp [List.dropWhile] at h
        | cons y ys => simp [List.getLast?_cons_cons]
      · simp only [Bool.not_eq_true] at hx
        simp [List.dropWhile, hx]

theorem pyStrip_stripped (l : List Char) (h : pyStrip l ≠ []) :
    Stripped (pyStrip l) := by
  unfold pyStrip at h ⊢
  set m := l.dropWhile isSpacePy with hm
  set r := m.reverse.dropWhile isSpacePy with hr
  have hrne : r ≠ [] := by
    intro hre
    rw [hre] at h
    simp at h
  refine ⟨h, ?_, ?_⟩
  · intro c hc
    rw [List.head?_reverse] at hc
    have hlast : r.getLast? = m.reverse.getLast? := getLast?_dropWhile _ _ hrne
    rw [hlast, List.getLast?_reverse] at hc
    exact head?_dropWhile_not isSpacePy l c hc
  · intro c hc
    rw [List.getLast?_reverse] at hc
    exact head?_dropWhile_not isSpacePy m.reverse c hc

theorem split_into_sentences_stripped (text : List Char) :
    ∀ s ∈ split_into_sentences text, Stripped s := by
  intro s hs
  unfold split_into_sentences at hs
  rw [List.mem_filter] at hs
  obtain ⟨hmem, hne⟩ := hs
  rw [List.mem_map] at hmem
  obtain ⟨u, _, hu⟩ := hmem
  subst hu
  apply pyStrip_stripped
  simpa [List.isEmpty_iff] using hne

/-! ## Lemmas: force-splitting of over-long sentences -/

theorem sliceEvery_flatten_aux (target : ℕ) (ht : target ≠ 0) :
    ∀ n (s : List Char), s.length ≤ n → (sliceEvery target s).flatten = s := by
  intro n
  induction n with
  | zero =>
      intro s hs
      have : s = [] := List.length_eq_zero.mp (Nat.le_zero.mp hs)
      subst this
      rw [sliceEvery]
      simp
  | succ n ih =>
      intro s hs
      rw [sliceEvery]
      by_cases hnil : s = []
      · simp [hnil]
      · rw [dif_neg (by simp [ht, hnil])]
        have hlen : s.length ≠ 0 := fun h0 => hnil (List.length_eq_zero.mp h0)
        have hdrop : (s.drop target).length ≤ n := by
          rw [List.length_drop]
          omega
        rw [List.flatten_cons, ih _ hdrop, List.take_append_drop]

theorem sliceEvery_flatten (target : ℕ) (s : List Char) (ht : target ≠ 0) :
    (sliceEvery target s).flatten = s :=
  sliceEvery_flatten_aux target ht s.length s (Nat.le_refl _)

theorem sliceEvery_mem_aux (target : ℕ) :
    ∀ n (s x : List Char), s.length ≤ n → x ∈ sliceEvery target s →
      x.length ≤ target ∧ x ≠ [] := by
  intro n
  induction n with
  | zero =>
      intro s x hs hx
      have : s = [] := List.length_eq_zero.mp (Nat.le_zero.mp hs)
      subst this
      rw [sliceEvery] at hx
      simp at hx
  | succ n ih =>
      intro s x hs hx
      rw [sliceEvery] at hx
      by_cases h : target = 0 ∨ s = []
      · simp [h] at hx
      · rw [dif_neg h] at hx
        push_neg at h
        have hlen : s.length ≠ 0 := fun h0 => h.2 (List.length_eq_zero.mp h0)
        rcases List.mem_cons.mp hx with h1 | h2
        · subst h1
          refine ⟨by simp [List.length_take], ?_⟩
          cases s with
          | nil => exact absurd rfl h.2
          | cons c cs =>
              cases htg : target with
              | zero => exact absurd htg h.1
              | succ k => simp
        · have hdrop : (s.drop target).length ≤ n := by
            rw [List.length_drop]
            have : target ≠ 0 := h.1
            omega
          exact ih _ x hdrop h2

theorem sliceEvery_length_le (target : ℕ) (s x : List Char)
    (hx : x ∈ sliceEvery target s) : x.length ≤ target :=
  (sliceEvery_mem_aux target s.length s x (Nat.le_refl _) hx).1

theorem sliceEvery_ne_nil (target : ℕ) (s x : List Char)
    (hx : x ∈ sliceEvery target s) : x ≠ [] :=
  (sliceEvery_mem_aux target s.length s x (Nat.le_refl _) hx).2

theorem pyWordsAux_le_length (l : List Char) (s : Bool) :
    pyWordsAux l s ≤ l.length := by
  induction l generalizing s with
  | nil => simp [pyWordsAux]
  | cons c cs ih =>
      by_cases hc : isSpacePy c = true
      · simp only [pyWordsAux, hc, if_true, List.length_cons]
        exact Nat.le_succ_of_le (ih false)
      · simp only [Bool.not_eq_true] at hc
        simp only [pyWordsAux, hc, Bool.false_eq_true, if_false, List.length_cons]
        have := ih true
        cases s <;> simp <;> omega

/-- The heuristic estimate never exceeds twice the character count. -/
theorem encode_le_two_mul (l : List Char) : encode l ≤ 2 * l.length := by
  have hc : chinese_chars l ≤ l.length := List.countP_le_length _
  have hw : pyWords l ≤ l.length := pyWordsAux_le_length l false
  unfold encode
  omega

/-- Whenever the force-split branch runs with `max_tokens ≥ 2`, the
character-proportional slice target `len * max_tokens / tokens` is
positive, so the Python slicing loop is well defined. -/
theorem target_pos (cfg : ChunkConfig) (s : List Char)
    (hs : Stripped s) (h2 : 2 ≤ cfg.max_tokens)
    (hover : cfg.max_tokens < encode s) :
    1 ≤ s.length * cfg.max_tokens / encode s := by
  have hlen : 1 ≤ s.length := by
    cases hsl : s with
    | nil => exact absurd hsl hs.1
    | cons c cs => simp
  have henc : encode s ≤ 2 * s.length := encode_le_two_mul s
  have hpos : 0 < encode s := by omega
  rw [Nat.one_le_div_iff hpos]
  calc encode s ≤ 2 * s.length := henc
    _ ≤ s.length * cfg.max_tokens := by
        rw [Nat.mul_comm s.length cfg.max_tokens]
        exact Nat.mul_le_mul_right _ h2

/-! ## Lemmas: the semantic chunking invariant -/

theorem flushCurrent_nil (st : SemState) (h : st.current = []) :
    flushCurrent st = st := by
  unfold flushCurrent
  rw [h]

theorem flushCurrent_cons (st : SemState) (x : List Char) (xs : List (List Char))
    (h : st.current = x :: xs) :
    flushCurrent st =
      { chunks := st.chunks ++ [⟨(x :: xs).flatten, st.start_index,
          st.start_index + ((x :: xs).flatten).length⟩],
        current := [], current_tokens := 0,
        start_index := st.start_index + ((x :: xs).flatten).length } := by
  unfold flushCurrent
  rw [h]

theorem ChunksTile_snoc :
    ∀ (cs : List TextChunk) (n : ℕ) (ch : TextChunk), ChunksTile n cs →
      ch.start_index = n + ((cs.map (fun c => c.content)).flatten).length →
      ch.end_index = ch.start_index + ch.content.length →
      ch.content ≠ [] → ChunksTile n (cs ++ [ch]) := by
  intro cs
  induction cs with
  | nil =>
      intro n ch _ hstart hend hne
      have hstart2 : ch.start_index = n := by simpa using hstart
      exact ⟨hstart2, by rw [hend, hstart2], hne, trivial⟩
  | cons c cs' ih =>
      intro n ch ht hstart hend hne
      obtain ⟨h1, h2, h3, h4⟩ := ht
      refine ⟨h1, h2, h3, ih c.end_index ch h4 ?_ hend hne⟩
      have hlen : ((List.map (fun c => c.content) (c :: cs')).flatten).length =
          c.content.length +
            ((List.map (fun c => c.content) cs').flatten).length := by
        simp
      rw [hstart, hlen, h2]
      omega

theorem ChunksTile_start_lt_end :
    ∀ (cs : List TextChunk) (n : ℕ), ChunksTile n cs →
      ∀ ch ∈ cs, ch.start_index < ch.end_index := by
  intro cs
  induction cs with
  | nil => intro n _ ch hch; simp at hch
  | cons c cs' ih =>
      intro n ht ch hch
      obtain ⟨h1, h2, h3, h4⟩ := ht
      rcases List.mem_cons.mp hch with rfl | hmem
      · have : ch.content.length ≠ 0 :=
          fun h0 => h3 (List.length_eq_zero.mp h0)
        omega
      · exact ih c.end_index h4 ch hmem

theorem flushCurrent_inv (cfg : ChunkConfig) (S : List (List Char))
    (st : SemState) (h : SemInv cfg S st) :
    SemInv cfg S (flushCurrent st) ∧ semText (flushCurrent st) = semText st ∧
      (flushCurrent st).current = [] := by
  obtain ⟨hchunks, hcur, htok, hmax, htile, hstart⟩ := h
  cases hc : st.current with
  | nil =>
      rw [flushCurrent_nil st hc]
      exact ⟨⟨hchunks, hcur, htok, hmax, htile, hstart⟩, rfl, hc⟩
  | cons x xs =>
      rw [flushCurrent_cons st x xs hc]
      rw [hc] at hcur htok
      have hstripped : ∀ s ∈ x :: xs, Stripped s := fun s hs => (hcur s hs).1
      have hflat_ne : (x :: xs).flatten ≠ [] := by
        have hx : Stripped x := hstripped x (by simp)
        cases hxl : x with
        | nil => exact absurd hxl hx.1
        | cons a as => simp [hxl]
      have hok : encode ((x :: xs).flatten) ≤ cfg.max_tokens := by
        apply encode_flatten_le _ _ hstripped
        omega
      refine ⟨⟨?_, by simp, rfl, Nat.zero_le _, ?_, ?_⟩, ?_, rfl⟩
      · intro ch hch
        rcases List.mem_append.mp hch with hold | hnew
        · exact hchunks ch hold
        · rcases List.mem_singleton.mp hnew with rfl
          exact Or.inl hok
      · exact ChunksTile_snoc st.chunks 0 _ htile (by simpa using hstart) rfl hflat_ne
      · simp [hstart]
      · simp [semText, hc]

theorem emitPieces_inv (cfg : ChunkConfig) (S : List (List Char)) :
    ∀ (pieces : List (List Char)) (st : SemState), SemInv cfg S st →
      (∀ p ∈ pieces, p ≠ [] ∧ SemContentOK cfg S p) →
      SemInv cfg S (emitPieces st pieces) ∧
      semText (emitPieces st pieces) =
        (st.chunks.map (fun c => c.content)).flatten ++ pieces.flatten ++
          st.current.flatten := by
  intro pieces
  induction pieces with
  | nil =>
      intro st h _
      exact ⟨h, by simp [emitPieces, semText]⟩
  | cons p ps ih =>
      intro st h hp
      obtain ⟨hchunks, hcur, htok, hmax, htile, hstart⟩ := h
      have hpok := hp p (by simp)
      have hstep : emitPieces st (p :: ps) =
          emitPieces
            { st with
              chunks := st.chunks ++
                [⟨p, st.start_index, st.start_index + p.length⟩],
              start_index := st.start_index + p.length } ps := by
        simp [emitPieces]
      rw [hstep]
      have hinv2 : SemInv cfg S
          { st with
            chunks := st.chunks ++
              [⟨p, st.start_index, st.start_index + p.length⟩],
            start_index := st.start_index + p.length } := by
        refine ⟨?_, hcur, htok, hmax, ?_, ?_⟩
        · intro ch hch
          rcases List.mem_append.mp hch with hold | hnew
          · exact hchunks ch hold
          · rcases List.mem_singleton.mp hnew with rfl
            exact hpok.2
        · exact ChunksTile_snoc st.chunks 0 _ htile (by simpa using hstart) rfl hpok.1
        · simp [hstart]
      obtain ⟨hinv3, htext⟩ := ih _ hinv2 (fun q hq => hp q (by simp [hq]))
      refine ⟨hinv3, ?_⟩
      rw [htext]
      simp

theorem semStep_inv (cfg : ChunkConfig) (S : List (List Char))
    (st : SemState) (s : List Char) (h : SemInv cfg S st)
    (hs : Stripped s) (hmem : s ∈ S) (h2 : 2 ≤ cfg.max_tokens) :
    SemInv cfg S (semStep cfg st s) ∧
      semText (semStep cfg st s) = semText st ++ s := by
  by_cases hforce : cfg.max_tokens < encode s
  · have hstep : semStep cfg st s =
        emitPieces (flushCurrent st) (split_long_sentence cfg s) := by
      simp [semStep, hforce]
    obtain ⟨hfinv, hftext, hfcur⟩ := flushCurrent_inv cfg S st h
    have htarget : 1 ≤ s.length * cfg.max_tokens / encode s :=
      target_pos cfg s hs h2 hforce
    have hsplit : split_long_sentence cfg s =
        sliceEvery (s.length * cfg.max_tokens / encode s) s := by
      unfold split_long_sentence
      rw [if_neg (by omega)]
    have hpieces : ∀ p ∈ split_long_sentence cfg s,
        p ≠ [] ∧ SemContentOK cfg S p := by
      intro p hp
      rw [hsplit] at hp
      refine ⟨sliceEvery_ne_nil _ _ _ hp, Or.inr ⟨s, hmem, hforce, ?_⟩⟩
      rw [hsplit]
      exact hp
    obtain ⟨heinv, hetext⟩ := emitPieces_inv cfg S (split_long_sentence cfg s)
      (flushCurrent st) hfinv hpieces
    rw [hstep]
    refine ⟨heinv, ?_⟩
    rw [hetext, hfcur]
    have hflat : (split_long_sentence cfg s).flatten = s := by
      rw [hsplit]
      exact sliceEvery_flatten _ _ (by omega)
    rw [hflat]
    have hfc : ((flushCurrent st).chunks.map (fun c => c.content)).flatten =
        semText st := by
      have := hftext
      simp only [semText, hfcur, List.flatten_nil, List.append_nil] at this
      exact this
    rw [hfc]
    simp
  · obtain ⟨hchunks, hcur, htok, hmax, htile, hstart⟩ := h
    by_cases hfit : st.current_tokens + encode s ≤ cfg.max_tokens
    · have hstep : semStep cfg st s =
          { st with current := st.current ++ [s],
                    current_tokens := st.current_tokens + encode s } := by
        simp [semStep, hforce, hfit]
      rw [hstep]
      constructor
      · refine ⟨hchunks, ?_, ?_, hfit, htile, hstart⟩
        · intro t ht
          rcases List.mem_append.mp ht with hold | hnew
          · exact hcur t hold
          · rcases List.mem_singleton.mp hnew with rfl
            exact ⟨hs, hmem⟩
        · simp [htok]
      · simp [semText]
    · have hstep : semStep cfg st s =
          { chunks := (flushCurrent st).chunks, current := [s],
            current_tokens := encode s,
            start_index := (flushCurrent st).start_index } := by
        simp [semStep, hforce, hfit]
      obtain ⟨hfinv, hftext, hfcur⟩ :=
        flushCurrent_inv cfg S st ⟨hchunks, hcur, htok, hmax, htile, hstart⟩
      obtain ⟨hfchunks, _, _, _, hftile, hfstart⟩ := hfinv
      rw [hstep]
      constructor
      · refine ⟨hfchunks, ?_, by simp, Nat.le_of_not_lt hforce, hftile, hfstart⟩
        intro t ht
        rcases List.mem_singleton.mp ht with rfl
        exact ⟨hs, hmem⟩
      · have hfc : ((flushCurrent st).chunks.map (fun c => c.content)).flatten =
            semText st := by
          have := hftext
          simp only [semText, hfcur, List.flatten_nil, List.append_nil] at this
          exact this
        simp [semText, hfc]

theorem sem_foldl_inv (cfg : ChunkConfig) (S : List (List Char))
    (h2 : 2 ≤ cfg.max_tokens) :
    ∀ (ss : List (List Char)) (st : SemState),
      (∀ s ∈ ss, Stripped s ∧ s ∈ S) → SemInv cfg S st →
      SemInv cfg S (ss.foldl (semStep cfg) st) ∧
        semText (ss.foldl (semStep cfg) st) = semText st ++ ss.flatten := by
  intro ss
  induction ss with
  | nil => intro st _ h; exact ⟨h, by simp⟩
  | cons s ss' ih =>
      intro st hss h
      have hs := hss s (by simp)
      obtain ⟨hinv2, htext2⟩ := semStep_inv cfg S st s h hs.1 hs.2 h2
      obtain ⟨hinv3, htext3⟩ := ih (semStep cfg st s)
        (fun t ht => hss t (by simp [ht])) hinv2
      constructor
      · simpa only [List.foldl_cons] using hinv3
      · rw [List.foldl_cons, htext3, htext2]
        simp

/-- Master specification of `_semantic_chunking` without overlap: every
chunk is admissible, the chunks tile `[0, …)` contiguously, and their
concatenation is exactly the concatenation of the sentence units. -/
theorem semantic_chunking_spec (cfg : ChunkConfig) (text : List Char)
    (h2 : 2 ≤ cfg.max_tokens) (hov : cfg.overlap_tokens = 0) :
    (∀ ch ∈ semantic_chunking cfg text,
        SemContentOK cfg (split_into_sentences text) ch.content) ∧
    ChunksTile 0 (semantic_chunking cfg text) ∧
    ((semantic_chunking cfg text).map (fun c => c.content)).flatten =
      (split_into_sentences text).flatten := by
  have hinit : SemInv cfg (split_into_sentences text) ⟨[], [], 0, 0⟩ := by
    exact ⟨by simp, by simp, rfl, Nat.zero_le _, trivial, rfl⟩
  have hss : ∀ s ∈ split_into_sentences text,
      Stripped s ∧ s ∈ split_into_sentences text :=
    fun s hs => ⟨split_into_sentences_stripped text s hs, hs⟩
  obtain ⟨hinv, htext⟩ :=
    sem_foldl_inv cfg (split_into_sentences text) h2
      (split_into_sentences text) ⟨[], [], 0, 0⟩ hss hinit
  obtain ⟨hfinv, hftext, hfcur⟩ :=
    flushCurrent_inv cfg (split_into_sentences text) _ hinv
  obtain ⟨hfchunks, _, _, _, hftile, _⟩ := hfinv
  have hchunks_eq : semantic_chunking cfg text =
      (flushCurrent ((split_into_sentences text).foldl (semStep cfg)
        ⟨[], [], 0, 0⟩)).chunks := by
    simp [semantic_chunking, hov]
  rw [hchunks_eq]
  refine ⟨hfchunks, hftile, ?_⟩
  have hfc : ((flushCurrent ((split_into_sentences text).foldl (semStep cfg)
      ⟨[], [], 0, 0⟩)).chunks.map (fun c => c.content)).flatten =
      semText ((split_into_sentences text).foldl (semStep cfg) ⟨[], [], 0, 0⟩) := by
    have := hftext
    simp only [semText, hfcur, List.flatten_nil, List.append_nil] at this
    exact this
  rw [hfc, htext]
  simp [semText]

/-! ## Claim C2 -/

/-- C2 (amended): with semantic chunking and `overlap_tokens = 0` (and a
token budget of at least 2, below which the Python force-split raises),
every chunk returned by `chunk_text` has estimated token count at most
`max_tokens`, except force-split pieces of a single over-long sentence,
which are bounded by the character-proportional slice target
`len(sentence) * max_tokens / tokens(sentence)`.  (As frozen — with the
overlap pass of the default configuration included — the claim is false,
see the counterexample.) -/
theorem claim_C2 (cfg : ChunkConfig) (text : List Char)
    (hsem : cfg.semantic_chunking = true) (hov : cfg.overlap_tokens = 0)
    (h2 : 2 ≤ cfg.max_tokens) :
    ∀ ch ∈ chunk_text cfg text,
      encode ch.content ≤ cfg.max_tokens ∨
      ∃ s ∈ split_into_sentences text, cfg.max_tokens < encode s ∧
        ch.content ∈ split_long_sentence cfg s ∧
        ch.content.length ≤ s.length * cfg.max_tokens / encode s := by
  intro ch hch
  rw [chunk_text, if_pos hsem] at hch
  obtain ⟨hok, _, _⟩ := semantic_chunking_spec cfg text h2 hov
  rcases hok ch hch with h | ⟨s, hsmem, hover, hmem⟩
  · exact Or.inl h
  · refine Or.inr ⟨s, hsmem, hover, hmem, ?_⟩
    have hsplit : split_long_sentence cfg s =
        sliceEvery (s.length * cfg.max_tokens / encode s) s := by
      unfold split_long_sentence
      rw [if_neg (by omega)]
    rw [hsplit] at hmem
    exact sliceEvery_length_le _ _ _ hmem

/-- C2 as frozen is false: with `max_tokens = 3` and the default
`overlap_tokens = 200`, on `"a b c。d e f。"` no sentence is over-long
(so no force-split piece exists), yet the second, overlap-prefixed chunk
estimates to 6 > 3 tokens. -/
theorem claim_C2_counterexample :
    (∀ s ∈ split_into_sentences "a b c。d e f。".data, encode s ≤ 3) ∧
    ∃ ch ∈ chunk_text { max_tokens := 3 } "a b c。d e f。".data,
      3 < encode ch.content := by
  constructor
  · decide
  · decide

theorem claim_C2_witness :
    encode (TextChunk.mk "a。".data 0 2).content ≤ 3 ∨
    ∃ s ∈ split_into_sentences "a。".data, 3 < encode s ∧
      (TextChunk.mk "a。".data 0 2).content ∈
        split_long_sentence { max_tokens := 3, overlap_tokens := 0 } s ∧
      (TextChunk.mk "a。".data 0 2).content.length ≤
        s.length * 3 / encode s :=
  claim_C2 { max_tokens := 3, overlap_tokens := 0 } "a。".data rfl rfl
    (by norm_num) (TextChunk.mk "a。".data 0 2) (by decide)

/-! ## Claim C3 -/

/-- C3 (amended): with `overlap_tokens = 0` (in semantic mode, token budget
at least 2) the chunks of one pass are ordered and contiguous —
`start_index < end_index`, each chunk starting where the previous ended,
tiling `[0, …)` — and their concatenation losslessly reconstructs the
concatenation of the sentence units of `_split_into_sentences` (NOT the
cleaned input text itself: the sentence splitter strips whitespace and
drops any trailing fragment that lacks a terminator, see the
counterexample). -/
theorem claim_C3 (cfg : ChunkConfig) (text : List Char)
    (hsem : cfg.semantic_chunking = true) (hov : cfg.overlap_tokens = 0)
    (h2 : 2 ≤ cfg.max_tokens) :
    ChunksTile 0 (chunk_text cfg text) ∧
    (∀ ch ∈ chunk_text cfg text, ch.start_index < ch.end_index) ∧
    ((chunk_text cfg text).map (fun c => c.content)).flatten =
      (split_into_sentences text).flatten := by
  rw [chunk_text, if_pos hsem]
  obtain ⟨_, htile, htext⟩ := semantic_chunking_spec cfg text h2 hov
  exact ⟨htile, ChunksTile_start_lt_end _ 0 htile, htext⟩

/-- C3 as frozen is false: with `overlap_tokens = 0`, on input `"A。B"` the
concatenated chunk contents are `"A。"`, not the input — the trailing
fragment `"B"` after the last sentence terminator is dropped by
`_split_into_sentences`. -/
theorem claim_C3_counterexample :
    ((chunk_text { overlap_tokens := 0 } "A。B".data).map
        (fun c => c.content)).flatten ≠ "A。B".data := by
  decide

theorem claim_C3_witness :
    ChunksTile 0 (chunk_text { max_tokens := 3, overlap_tokens := 0 } "a。b c。".data) ∧
    (∀ ch ∈ chunk_text { max_tokens := 3, overlap_tokens := 0 } "a。b c。".data,
      ch.start_index < ch.end_index) ∧
    ((chunk_text { max_tokens := 3, overlap_tokens := 0 } "a。b c。".data).map
        (fun c => c.content)).flatten =
      (split_into_sentences "a。b c。".data).flatten :=
  claim_C3 { max_tokens := 3, overlap_tokens := 0 } "a。b c。".data rfl rfl
    (by norm_num)

/-! ## Claim C5 -/

theorem floor_215_216 : ((215 : ℚ)/216).floor = 0 := by
  show ⌊(215 : ℚ)/216⌋ = 0
  rw [Int.floor_eq_zero_iff]
  constructor <;> norm_num

/-- C5 (confirmed): `check_limit` returns false exactly when adding the
request to the usage accumulated in the window's current period
`[now − now mod reset_interval, now)` would exceed the token or the cost
ceiling; and in the daily scenario with ceiling 1000 and 950 already used,
requesting 100 more is refused while 40 more is allowed. -/
theorem claim_C5 :
    (∀ (dtl : ℤ) (dcl : ℚ) (wtl : ℤ) (wcl : ℚ) (mtl : ℤ) (mcl : ℚ)
        (history : List TokenUsage) (tokens : ℤ) (cost : ℚ)
        (lt : TokenLimitType) (limit : TokenLimit) (now : ℚ),
      (mkTokenManager dtl dcl wtl wcl mtl mcl).limits lt = some limit →
      (check_limit { mkTokenManager dtl dcl wtl wcl mtl mcl with
          usage_history := history } tokens cost lt now = some false ↔
        limit.max_tokens <
          ((history.filter (fun u =>
              decide (now - pyMod now limit.reset_interval ≤ u.timestamp ∧
                u.timestamp < now))).map (fun u => u.tokens)).sum + tokens ∨
        limit.max_cost <
          ((history.filter (fun u =>
              decide (now - pyMod now limit.reset_interval ≤ u.timestamp ∧
                u.timestamp < now))).map (fun u => u.cost)).sum + cost)) ∧
    check_limit { mkTokenManager 1000 10 with
        usage_history := [⟨100, 950, 0, "m", "t", "h"⟩] } 100 0 .daily 86000
      = some false ∧
    check_limit { mkTokenManager 1000 10 with
        usage_history := [⟨100, 950, 0, "m", "t", "h"⟩] } 40 0 .daily 86000
      = some true := by
  refine ⟨?_, ?_, ?_⟩
  · intro dtl dcl wtl wcl mtl mcl history tokens cost lt limit now hlim
    have hlim2 : ({ mkTokenManager dtl dcl wtl wcl mtl mcl with
        usage_history := history } : TokenManager).limits lt = some limit := hlim
    unfold check_limit
    rw [hlim2]
    simp only [Option.map_some', Option.some.injEq, get_period_usage]
    by_cases h1 : limit.max_tokens <
        ((history.filter (fun u =>
            decide (now - pyMod now limit.reset_interval ≤ u.timestamp ∧
              u.timestamp < now))).map (fun u => u.tokens)).sum + tokens
    · rw [if_pos h1]
      simp only [eq_self_iff_true, true_iff]
      exact Or.inl h1
    · rw [if_neg h1]
      by_cases h2 : limit.max_cost <
          ((history.filter (fun u =>
              decide (now - pyMod now limit.reset_interval ≤ u.timestamp ∧
                u.timestamp < now))).map (fun u => u.cost)).sum + cost
      · rw [if_pos h2]
        simp only [eq_self_iff_true, true_iff]
        exact Or.inr h2
      · rw [if_neg h2]
        constructor
        · intro hfalse
          exact absurd hfalse (by simp)
        · intro hx
          rcases hx with hx | hx
          · exact absurd hx h1
          · exact absurd hx h2
  · simp only [check_limit, mkTokenManager, get_period_usage, pyMod,
      List.filter, List.map, List.sum_cons, List.sum_nil]
    norm_num [floor_215_216]
  · simp only [check_limit, mkTokenManager, get_period_usage, pyMod,
      List.filter, List.map, List.sum_cons, List.sum_nil]
    norm_num [floor_215_216]

theorem claim_C5_witness :
    check_limit { mkTokenManager 1000 10 with
        usage_history := [⟨100, 950, 0, "m", "t", "h"⟩] } 100 0 .daily 86000
        = some false ↔
      ((1000 : ℤ) <
        ((([⟨100, 950, 0, "m", "t", "h"⟩] : List TokenUsage).filter (fun u =>
            decide ((86000 : ℚ) - pyMod 86000 86400 ≤ u.timestamp ∧
              u.timestamp < 86000))).map (fun u => u.tokens)).sum + 100 ∨
      (10 : ℚ) <
        ((([⟨100, 950, 0, "m", "t", "h"⟩] : List TokenUsage).filter (fun u =>
            decide ((86000 : ℚ) - pyMod 86000 86400 ≤ u.timestamp ∧
              u.timestamp < 86000))).map (fun u => u.cost)).sum + 0) :=
  claim_C5.1 1000 10 500000 50 2000000 200 [⟨100, 950, 0, "m", "t", "h"⟩]
    100 0 .daily ⟨1000, 10, 86400⟩ 86000 rfl

/-! ## Claim C6 -/

theorem lruKeyGo_spec {α : Type} :
    ∀ (rest : List (String × CacheEntry α)) (best : String × CacheEntry α),
      ∃ e : CacheEntry α,
        ((lruKeyGo best rest = best.1 ∧ e = best.2) ∨ (lruKeyGo best rest, e) ∈ rest) ∧
        e.last_access ≤ best.2.last_access ∧
        ∀ p ∈ rest, e.last_access ≤ p.2.last_access := by
  intro rest
  induction rest with
  | nil =>
      intro best
      exact ⟨best.2, Or.inl ⟨rfl, rfl⟩, le_refl _, by simp⟩
  | cons q rest' ih =>
      intro best
      by_cases h : q.2.last_access < best.2.last_access
      · obtain ⟨e, hmem, hle, hall⟩ := ih q
        have hgo : lruKeyGo best (q :: rest') = lruKeyGo q rest' := by
          rcases q with ⟨qk, qe⟩
          simp only [lruKeyGo]
          rw [if_pos h]
        refine ⟨e, ?_, le_trans hle (le_of_lt h), ?_⟩
        · rw [hgo]
          rcases hmem with ⟨h1, h2⟩ | hin
          · refine Or.inr ?_
            rw [h1, h2]
            exact List.mem_cons_self _ _
          · exact Or.inr (List.mem_cons_of_mem _ hin)
        · intro p hp
          rcases List.mem_cons.mp hp with rfl | hp2
          · exact hle
          · exact hall p hp2
      · obtain ⟨e, hmem, hle, hall⟩ := ih best
        have hgo : lruKeyGo best (q :: rest') = lruKeyGo best rest' := by
          rcases q with ⟨qk, qe⟩
          simp only [lruKeyGo]
          rw [if_neg h]
        refine ⟨e, ?_, hle, ?_⟩
        · rw [hgo]
          rcases hmem with ⟨h1, h2⟩ | hin
          · exact Or.inl ⟨h1, h2⟩
          · exact Or.inr (List.mem_cons_of_mem _ hin)
        · intro p hp
          rcases List.mem_cons.mp hp with rfl | hp2
          · exact le_trans hle (not_lt.mp h)
          · exact hall p hp2

theorem lookupEntry_eq_none_of_not_mem {α : Type} :
    ∀ (l : List (String × CacheEntry α)) (k : String),
      k ∉ l.map Prod.fst → lookupEntry l k = none := by
  intro l
  induction l with
  | nil => intro k _; rfl
  | cons p rest ih =>
      intro k hk
      simp only [List.map_cons, List.mem_cons] at hk
      push_neg at hk
      rcases p with ⟨pk, pe⟩
      simp only [lookupEntry]
      rw [if_neg (fun h => hk.1 h.symm)]
      exact ih k hk.2

theorem lookupEntry_of_mem_nodup {α : Type} :
    ∀ (l : List (String × CacheEntry α)) (k : String) (e : CacheEntry α),
      (k, e) ∈ l → (l.map Prod.fst).Nodup → lookupEntry l k = some e := by
  intro l
  induction l with
  | nil => intro k e hmem _; simp at hmem
  | cons p rest ih =>
      intro k e hmem hnd
      rcases p with ⟨pk, pe⟩
      simp only [List.map_cons, List.nodup_cons] at hnd
      rcases List.mem_cons.mp hmem with heq | hin
      · injection heq with h1 h2
        subst h1
        subst h2
        simp [lookupEntry]
      · have hkne : pk ≠ k := by
          intro hkk
          subst hkk
          exact hnd.1 (List.mem_map.mpr ⟨(pk, e), hin, rfl⟩)
        simp only [lookupEntry]
        rw [if_neg hkne]
        exact ih k e hin hnd.2

theorem lookupEntry_removeEntry_self {α : Type} :
    ∀ (l : List (String × CacheEntry α)) (k : String),
      (l.map Prod.fst).Nodup → lookupEntry (removeEntry l k) k = none := by
  intro l
  induction l with
  | nil => intro k _; rfl
  | cons p rest ih =>
      intro k hnd
      rcases p with ⟨pk, pe⟩
      simp only [List.map_cons, List.nodup_cons] at hnd
      simp only [removeEntry]
      by_cases hk : pk = k
      · rw [if_pos hk]
        subst hk
        exact lookupEntry_eq_none_of_not_mem rest pk hnd.1
      · rw [if_neg hk]
        simp only [lookupEntry]
        rw [if_neg hk]
        exact ih k hnd.2

theorem lookupEntry_removeEntry_ne {α : Type} :
    ∀ (l : List (String × CacheEntry α)) (k k2 : String), k2 ≠ k →
      lookupEntry (removeEntry l k) k2 = lookupEntry l k2 := by
  intro l
  induction l with
  | nil => intro k k2 _; rfl
  | cons p rest ih =>
      intro k k2 hne
      rcases p with ⟨pk, pe⟩
      simp only [removeEntry]
      by_cases hk : pk = k
      · rw [if_pos hk]
        subst hk
        simp only [lookupEntry]
        rw [if_neg (fun h => hne h.symm)]
      · rw [if_neg hk]
        simp only [lookupEntry]
        by_cases hk2 : pk = k2
        · rw [if_pos hk2, if_pos hk2]
        · rw [if_neg hk2, if_neg hk2]
          exact ih k k2 hne

theorem lookupEntry_putEntry {α : Type} :
    ∀ (l : List (String × CacheEntry α)) (k k2 : String) (e : CacheEntry α),
      lookupEntry (putEntry l k e) k2 =
        if k2 = k then some e else lookupEntry l k2 := by
  intro l
  induction l with
  | nil =>
      intro k k2 e
      simp only [putEntry, lookupEntry]
      by_cases h : k2 = k
      · rw [if_pos h, if_pos h.symm]
      · rw [if_neg h, if_neg (fun hh => h hh.symm)]
  | cons p rest ih =>
      intro k k2 e
      rcases p with ⟨pk, pe⟩
      simp only [putEntry]
      by_cases hk : pk = k
      · subst hk
        rw [if_pos rfl]
        simp only [lookupEntry]
        by_cases h2 : pk = k2
        · subst h2
          simp
        · rw [if_neg h2, if_neg (fun hh => h2 hh.symm), if_neg h2]
      · rw [if_neg hk]
        simp only [lookupEntry]
        by_cases h2 : pk = k2
        · subst h2
          rw [if_pos rfl, if_neg hk, if_pos rfl]
        · rw [if_neg h2, if_neg h2, ih]

theorem memSet_entries_at_capacity {α : Type} (c : MemoryCache α) (k : String)
    (v : α) (ttl : Option ℤ) (now : ℚ)
    (hsize : c.config.max_size ≤ c.entries.length)
    (ek : String) (hlru : lruKey c.entries = some ek)
    (ee : CacheEntry α) (hlook : lookupEntry c.entries ek = some ee) :
    ∃ E : CacheEntry α,
      (memSet c k v ttl now).entries = putEntry (removeEntry c.entries ek) k E := by
  unfold memSet
  rw [if_pos hsize]
  unfold evict_lru
  rw [hlru]
  dsimp only
  unfold delete_entry
  rw [hlook]
  exact ⟨_, rfl⟩

/-- C6 (confirmed): when the cache is at capacity, `set` evicts exactly the
entry whose `last_access` is minimal (the first such in insertion order)
before inserting — the evicted key disappears, every other key survives —
and the scenario `set a; set b; get a; set c` on a capacity-2 cache evicts
`"b"`, not `"a"`. -/
theorem claim_C6 :
    (∀ (α : Type) (c : MemoryCache α) (k : String) (v : α) (ttl : Option ℤ) (now : ℚ),
      (c.entries.map Prod.fst).Nodup →
      c.config.max_size ≤ c.entries.length →
      c.entries ≠ [] →
      ∃ ek ee, lruKey c.entries = some ek ∧
        lookupEntry c.entries ek = some ee ∧
        (∀ p ∈ c.entries, ee.last_access ≤ p.2.last_access) ∧
        (ek ≠ k → lookupEntry (memSet c k v ttl now).entries ek = none) ∧
        (∀ k2 e2, k2 ≠ ek → k2 ≠ k → lookupEntry c.entries k2 = some e2 →
          lookupEntry (memSet c k v ttl now).entries k2 = some e2)) ∧
    ((memSet ((memGet (memSet (memSet
        (mkMemoryCache { max_size := 2 } 0 : MemoryCache String)
        "a" "va" none 1) "b" "vb" none 2) "a" 3).2) "c" "vc" none 4).entries.map
      Prod.fst = ["a", "c"]) := by
  constructor
  · intro α c k v ttl now hnd hsize hne
    obtain ⟨p, rest, hcent⟩ := List.exists_cons_of_ne_nil hne
    obtain ⟨e, hmem, hle, hall⟩ := lruKeyGo_spec rest p
    have hlru : lruKey c.entries = some (lruKeyGo p rest) := by
      rw [hcent]
      rfl
    have hpair : (lruKeyGo p rest, e) ∈ c.entries := by
      rw [hcent]
      rcases hmem with ⟨h1, h2⟩ | hin
      · rw [h1, h2]
        exact List.mem_cons_self _ _
      · exact List.mem_cons_of_mem _ hin
    have hlook : lookupEntry c.entries (lruKeyGo p rest) = some e :=
      lookupEntry_of_mem_nodup c.entries _ e hpair hnd
    obtain ⟨E, hEntries⟩ :=
      memSet_entries_at_capacity c k v ttl now hsize _ hlru e hlook
    refine ⟨lruKeyGo p rest, e, hlru, hlook, ?_, ?_, ?_⟩
    · intro q hq
      rw [hcent] at hq
      rcases List.mem_cons.mp hq with rfl | hq2
      · exact hle
      · exact hall q hq2
    · intro hekk
      rw [hEntries, lookupEntry_putEntry, if_neg hekk]
      exact lookupEntry_removeEntry_self c.entries _ hnd
    · intro k2 e2 hk2ek hk2k hl2
      rw [hEntries, lookupEntry_putEntry, if_neg hk2k,
        lookupEntry_removeEntry_ne c.entries _ k2 hk2ek]
      exact hl2
  · norm_num [memSet, memGet, mkMemoryCache, periodic_cleanup, cleanup, is_expired,
      evict_lru, delete_entry, lruKey, lruKeyGo, lookupEntry, putEntry, removeEntry,
      List.filter]
    decide

theorem claim_C6_witness :
    ∃ ek ee,
      lruKey ([("a", ⟨"a", "va", 1, 3600, 1, 3⟩),
        ("b", ⟨"b", "vb", 2, 3600, 0, 0⟩)] :
          List (String × CacheEntry String)) = some ek ∧
      lookupEntry ([("a", ⟨"a", "va", 1, 3600, 1, 3⟩),
        ("b", ⟨"b", "vb", 2, 3600, 0, 0⟩)] :
          List (String × CacheEntry String)) ek = some ee ∧
      (∀ p ∈ ([("a", ⟨"a", "va", 1, 3600, 1, 3⟩),
        ("b", ⟨"b", "vb", 2, 3600, 0, 0⟩)] :
          List (String × CacheEntry String)),
        ee.last_access ≤ p.2.last_access) ∧
      (ek ≠ "c" → lookupEntry (memSet
        (⟨{ max_size := 2 }, [("a", ⟨"a", "va", 1, 3600, 1, 3⟩),
          ("b", ⟨"b", "vb", 2, 3600, 0, 0⟩)], {}, 0⟩ : MemoryCache String)
        "c" "vc" none 4).entries ek = none) ∧
      (∀ k2 e2, k2 ≠ ek → k2 ≠ "c" →
        lookupEntry ([("a", ⟨"a", "va", 1, 3600, 1, 3⟩),
          ("b", ⟨"b", "vb", 2, 3600, 0, 0⟩)] :
            List (String × CacheEntry String)) k2 = some e2 →
        lookupEntry (memSet
          (⟨{ max_size := 2 }, [("a", ⟨"a", "va", 1, 3600, 1, 3⟩),
            ("b", ⟨"b", "vb", 2, 3600, 0, 0⟩)], {}, 0⟩ : MemoryCache String)
          "c" "vc" none 4).entries k2 = some e2) :=
  claim_C6.1 String
    (⟨{ max_size := 2 }, [("a", ⟨"a", "va", 1, 3600, 1, 3⟩),
      ("b", ⟨"b", "vb", 2, 3600, 0, 0⟩)], {}, 0⟩ : MemoryCache String)
    "c" "vc" none 4 (by decide) (by decide) (by decide)

/-! ## Claim C7 -/

theorem recommendGo_eq_find (tokens : ℤ) (budget : ℚ) :
    ∀ l : List (String × ℚ), recommendGo tokens budget l =
      ((l.find? (fun p =>
        decide ((tokens : ℚ) / 1000 * p.2 ≤ budget))).map Prod.fst).getD
        "gpt-3.5-turbo" := by
  intro l
  induction l with
  | nil => rfl
  | cons p rest ih =>
      rcases p with ⟨m, c⟩
      simp only [recommendGo, List.find?]
      by_cases h : (tokens : ℚ) / 1000 * c ≤ budget
      · rw [if_pos h]
        simp [h]
      · rw [if_neg h]
        simp only [decide_eq_true_eq] at *
        simp [h, ih]

theorem lookupCost_haiku : lookupCost model_costs "claude-3-haiku" = 25/100000 := by
  simp only [model_costs, lookupCost]
  rw [if_neg (by decide), if_neg (by decide), if_neg (by decide),
    if_neg (by decide)]
  simp

theorem lookupCost_gpt35 : lookupCost model_costs "gpt-3.5-turbo" = 2/1000 := by
  simp only [model_costs, lookupCost]
  simp

/-- C7 (amended): `get_model_recommendation` scans its hard-coded list in
source order — which is NOT ascending by price — and returns the first
model whose estimated cost fits the budget; when none fits it falls back
to `"gpt-3.5-turbo"`, which is NOT the cheapest known model
(`claude-3-haiku` is strictly cheaper). -/
theorem claim_C7 :
    (∀ (tokens : ℤ) (budget : ℚ),
      get_model_recommendation tokens budget =
        ((recommendation_models.find? (fun p =>
          decide ((tokens : ℚ) / 1000 * p.2 ≤ budget))).map Prod.fst).getD
          "gpt-3.5-turbo") ∧
    estimate_cost 1000 "claude-3-haiku" < estimate_cost 1000 "gpt-3.5-turbo" := by
  constructor
  · intro tokens budget
    exact recommendGo_eq_find tokens budget recommendation_models
  · norm_num [estimate_cost, lookupCost_haiku, lookupCost_gpt35]

/-- C7 as frozen is false: at tokens = 1000 and budget 0.002 the scan
returns `gpt-3.5-turbo` although `claude-3-haiku` also fits the budget at a
strictly lower price (so the scanned list is not ascending by price and the
result is not the cheapest qualifying model); and when nothing fits
(budget 0) the fallback `gpt-3.5-turbo` is not the cheapest known model. -/
theorem claim_C7_counterexample :
    get_model_recommendation 1000 (2/1000) = "gpt-3.5-turbo" ∧
    estimate_cost 1000 "claude-3-haiku" ≤ 2/1000 ∧
    estimate_cost 1000 "claude-3-haiku" < estimate_cost 1000 "gpt-3.5-turbo" ∧
    get_model_recommendation 1000 0 = "gpt-3.5-turbo" := by
  refine ⟨?_, ?_, ?_, ?_⟩ <;>
    norm_num [get_model_recommendation, recommendGo, recommendation_models,
      estimate_cost, lookupCost_haiku, lookupCost_gpt35]

/-! ## Claim C9 -/

/-- C9 (confirmed): merging a list containing exactly one chunk analysis
result returns that result unchanged, consuming no script and issuing no
LLM call (identity law of `_merge_analysis_results`). -/
theorem claim_C9 (cfg : AnalysisConfig) (script : Script) (r : ChunkResultD) :
    merge_analysis_results cfg script [r] = (r, script, []) := rfl

/-! ## Claim C8 -/

/-- C8 (confirmed): if, after a successful multi-chunk loop, the
summary-consolidation call raises (the next script entry is an exception),
the analysis still completes with an `ok` result whose summary is the first
chunk's summary. -/
theorem claim_C8 (cfg : AnalysisConfig) (parse : String → ChunkResultD)
    (cache : ChunkCache) (script : Script) (chunks : List (List Char))
    (sname : Option String) (analysis_time : ℚ) (model_used : String)
    (r1 r2 : ChunkResultD) (rs : List ChunkResultD) (tt : ℤ) (tc : ℚ)
    (cache2 : ChunkCache) (srest : Script) (evs : List AEvent)
    (hloop : analyze_chunks_loop cfg parse cache script chunks sname =
      (.ok (r1 :: r2 :: rs, tt, tc), cache2, ChatOutcome.err :: srest, evs)) :
    ∃ res : AnalysisResultD,
      (analyze_subtitle_core cfg parse cache script chunks sname
        analysis_time model_used).1 = .ok res ∧
      res.summary = r1.summary := by
  unfold analyze_subtitle_core
  rw [hloop]
  exact ⟨_, rfl, rfl⟩

theorem claim_C8_witness :
    ∃ res : AnalysisResultD,
      (analyze_subtitle_core { enable_caching := false } parseSummaryOnly []
        [.ok "A" 10 1, .ok "B" 20 2, .err] ["c1".data, "c2".data] none 0 "m").1 =
        .ok res ∧
      res.summary = (⟨"A", [], [], [], [], 10, 1⟩ : ChunkResultD).summary :=
  claim_C8 { enable_caching := false } parseSummaryOnly []
    [.ok "A" 10 1, .ok "B" 20 2, .err] ["c1".data, "c2".data] none 0 "m"
    ⟨"A", [], [], [], [], 10, 1⟩ ⟨"B", [], [], [], [], 20, 2⟩ [] (10 + (20 + 0))
    (1 + (2 + 0)) [] [] [.llmCall, .llmCall] rfl

/-! ## Claim C4 -/

theorem analyze_chunks_loop_totals (cfg : AnalysisConfig)
    (parse : String → ChunkResultD) :
    ∀ (chunks : List (List Char)) (cache : ChunkCache) (script : Script)
      (sname : Option String) (results : List ChunkResultD) (tt : ℤ) (tc : ℚ)
      (cache2 : ChunkCache) (script2 : Script) (evs : List AEvent),
      analyze_chunks_loop cfg parse cache script chunks sname =
        (.ok (results, tt, tc), cache2, script2, evs) →
      tt = (results.map (fun r => r.tokens_used)).sum ∧
      tc = (results.map (fun r => r.cost)).sum := by
  intro chunks
  induction chunks with
  | nil =>
      intro cache script sname results tt tc cache2 script2 evs h
      simp only [analyze_chunks_loop, Prod.mk.injEq, Except.ok.injEq] at h
      obtain ⟨⟨hres, htt, htc⟩, _⟩ := h
      subst hres
      subst htt
      subst htc
      simp
  | cons c cs ih =>
      intro cache script sname results tt tc cache2 script2 evs h
      rw [analyze_chunks_loop] at h
      rcases hac : analyze_chunk cfg parse cache script c sname with
        ⟨out, cacheA, scriptA, evA⟩
      rw [hac] at h
      cases out with
      | error e => simp at h
      | ok r =>
          dsimp only at h
          rcases hrec : analyze_chunks_loop cfg parse cacheA scriptA cs sname with
            ⟨outR, cacheB, scriptB, evsB⟩
          rw [hrec] at h
          cases outR with
          | error e => simp at h
          | ok triple =>
              rcases triple with ⟨rs, tt2, tc2⟩
              simp only [Prod.mk.injEq, Except.ok.injEq] at h
              obtain ⟨⟨hres, htt, htc⟩, _⟩ := h
              obtain ⟨h1, h2⟩ := ih cacheA scriptA sname rs tt2 tc2
                cacheB scriptB evsB (by rw [hrec])
              subst hres
              simp only [List.map_cons, List.sum_cons]
              exact ⟨by rw [← htt, h1], by rw [← htc, h2]⟩


/-- C4 (amended): the composed `AnalysisResult` of a successful analysis has
`total_tokens`/`total_cost` equal to the sum over the per-chunk results
(cached or fresh) of `tokens_used`/`cost` — the consolidation (merge) call's
tokens and cost are NOT included — and `chunk_count` equals the number of
chunks.  (The frozen claim, which adds the merge call's usage to the
totals, is refuted by the counterexample.) -/
theorem claim_C4 (cfg : AnalysisConfig) (parse : String → ChunkResultD)
    (cache : ChunkCache) (script : Script) (chunks : List (List Char))
    (sname : Option String) (analysis_time : ℚ) (model_used : String)
    (results : List ChunkResultD) (tt : ℤ) (tc : ℚ)
    (cache2 : ChunkCache) (script2 : Script) (evs : List AEvent)
    (hloop : analyze_chunks_loop cfg parse cache script chunks sname =
      (.ok (results, tt, tc), cache2, script2, evs)) :
    ∃ res : AnalysisResultD,
      (analyze_subtitle_core cfg parse cache script chunks sname
        analysis_time model_used).1 = .ok res ∧
      res.total_tokens = (results.map (fun r => r.tokens_used)).sum ∧
      res.total_cost = (results.map (fun r => r.cost)).sum ∧
      res.chunk_count = chunks.length := by
  obtain ⟨h1, h2⟩ := analyze_chunks_loop_totals cfg parse chunks cache script
    sname results tt tc cache2 script2 evs hloop
  unfold analyze_subtitle_core
  rw [hloop]
  dsimp only
  rcases hm : merge_analysis_results cfg script2 results with ⟨merged, script3, ev2⟩
  exact ⟨_, rfl, h1, h2, rfl⟩

/-- C4 as frozen is false: two chunks costing 10 and 20 tokens, a merge call
costing 7 tokens that is issued and succeeds (the final summary is the
consolidation output), yet `total_tokens` is 30, not 37: the merge call's
usage is dropped. -/
theorem claim_C4_counterexample :
    ∃ res : AnalysisResultD,
      (analyze_subtitle_core { enable_caching := false } parseSummaryOnly []
        [.ok "r1" 10 1, .ok "r2" 20 2, .ok "merged" 7 5]
        ["c1".data, "c2".data] none 0 "m").1 = .ok res ∧
      res.summary = "merged" ∧
      res.chunk_count = 2 ∧
      res.total_tokens = 30 ∧
      ¬ res.total_tokens = 10 + 20 + 7 := by
  refine ⟨_, rfl, rfl, rfl, by decide, by decide⟩

theorem claim_C4_witness :
    ∃ res : AnalysisResultD,
      (analyze_subtitle_core { enable_caching := false } parseSummaryOnly []
        [.ok "r1" 10 1, .ok "r2" 20 2, .ok "merged" 7 5]
        ["c1".data, "c2".data] none 0 "m").1 = .ok res ∧
      res.total_tokens =
        (([⟨"r1", [], [], [], [], 10, 1⟩, ⟨"r2", [], [], [], [], 20, 2⟩] :
          List ChunkResultD).map (fun r => r.tokens_used)).sum ∧
      res.total_cost =
        (([⟨"r1", [], [], [], [], 10, 1⟩, ⟨"r2", [], [], [], [], 20, 2⟩] :
          List ChunkResultD).map (fun r => r.cost)).sum ∧
      res.chunk_count = (["c1".data, "c2".data] : List (List Char)).length :=
  claim_C4 { enable_caching := false } parseSummaryOnly []
    [.ok "r1" 10 1, .ok "r2" 20 2, .ok "merged" 7 5]
    ["c1".data, "c2".data] none 0 "m"
    [⟨"r1", [], [], [], [], 10, 1⟩, ⟨"r2", [], [], [], [], 20, 2⟩]
    (10 + (20 + 0)) (1 + (2 + 0)) [] [.ok "merged" 7 5]
    [.llmCall, .llmCall] rfl

/-! ## Claim C10 -/

theorem chunkCachePut_lookup :
    ∀ (cache : ChunkCache) (key k2 : List Char × Option String) (r : ChunkResultD),
      chunkCacheLookup (chunkCachePut cache key r) k2 =
        if k2 = key then some r else chunkCacheLookup cache k2 := by
  intro cache
  induction cache with
  | nil =>
      intro key k2 r
      simp only [chunkCachePut, chunkCacheLookup]
      by_cases h : k2 = key
      · rw [if_pos h, if_pos h.symm]
      · rw [if_neg h, if_neg (fun hh => h hh.symm)]
  | cons p rest ih =>
      intro key k2 r
      rcases p with ⟨pk, pr⟩
      simp only [chunkCachePut]
      by_cases hk : pk = key
      · subst hk
        rw [if_pos rfl]
        simp only [chunkCacheLookup]
        by_cases h2 : pk = k2
        · subst h2
          simp
        · rw [if_neg h2, if_neg (fun hh => h2 hh.symm), if_neg h2]
      · rw [if_neg hk]
        simp only [chunkCacheLookup]
        by_cases h2 : pk = k2
        · subst h2
          rw [if_pos rfl, if_neg hk, if_pos rfl]
        · rw [if_neg h2, if_neg h2, ih]

theorem analyze_chunk_mono (cfg : AnalysisConfig) (parse : String → ChunkResultD)
    (cache : ChunkCache) (script : Script) (c : List Char) (sname : Option String)
    (out : Except Unit ChunkResultD) (cache2 : ChunkCache) (script2 : Script)
    (ev : List AEvent)
    (h : analyze_chunk cfg parse cache script c sname = (out, cache2, script2, ev)) :
    ∀ (k : List Char × Option String) (r : ChunkResultD),
      chunkCacheLookup cache k = some r → chunkCacheLookup cache2 k = some r := by
  intro k r hk
  unfold analyze_chunk at h
  dsimp only at h
  rcases hm : (if cfg.enable_caching = true then chunkCacheLookup cache (c, sname)
      else none) with _ | r0
  · rw [hm] at h
    dsimp only at h
    cases script with
    | nil =>
        injection h with h1 h2
        injection h2 with h2a h2b
        rw [← h2a]
        exact hk
    | cons o rest =>
        cases o with
        | ok rc rt rco =>
            dsimp only at h
            injection h with h1 h2
            injection h2 with h2a h2b
            rw [← h2a]
            by_cases hen : cfg.enable_caching = true
            · rw [if_pos hen]
              rw [if_pos hen] at hm
              rw [chunkCachePut_lookup]
              by_cases hkk : k = (c, sname)
              · rw [hkk] at hk
                rw [hk] at hm
                exact absurd hm (by simp)
              · rw [if_neg hkk]
                exact hk
            · rw [if_neg hen]
              exact hk
        | err =>
            dsimp only at h
            injection h with h1 h2
            injection h2 with h2a h2b
            rw [← h2a]
            exact hk
  · rw [hm] at h
    dsimp only at h
    injection h with h1 h2
    injection h2 with h2a h2b
    rw [← h2a]
    exact hk

theorem analyze_chunk_stores (cfg : AnalysisConfig) (parse : String → ChunkResultD)
    (cache : ChunkCache) (script : Script) (c : List Char) (sname : Option String)
    (r : ChunkResultD) (cache2 : ChunkCache) (script2 : Script) (ev : List AEvent)
    (hen : cfg.enable_caching = true)
    (h : analyze_chunk cfg parse cache script c sname = (.ok r, cache2, script2, ev)) :
    chunkCacheLookup cache2 (c, sname) = some r := by
  unfold analyze_chunk at h
  dsimp only at h
  rcases hm : (if cfg.enable_caching = true then chunkCacheLookup cache (c, sname)
      else none) with _ | r0
  · rw [hm] at h
    dsimp only at h
    cases script with
    | nil => simp at h
    | cons o rest =>
        cases o with
        | ok rc rt rco =>
            dsimp only at h
            injection h with h1 h2
            injection h2 with h2a h2b
            injection h1 with h0
            rw [← h2a, if_pos hen, chunkCachePut_lookup, if_pos rfl, h0]
        | err => simp at h
  · rw [hm] at h
    dsimp only at h
    injection h with h1 h2
    injection h2 with h2a h2b
    injection h1 with h0
    rw [if_pos hen] at hm
    rw [← h2a, hm, h0]

theorem analyze_chunks_loop_cached (cfg : AnalysisConfig)
    (parse : String → ChunkResultD) (hen : cfg.enable_caching = true) :
    ∀ (chunks : List (List Char)) (cache : ChunkCache) (script : Script)
      (sname : Option String) (results : List ChunkResultD) (tt : ℤ) (tc : ℚ)
      (cache2 : ChunkCache) (script2 : Script) (evs : List AEvent),
      analyze_chunks_loop cfg parse cache script chunks sname =
        (.ok (results, tt, tc), cache2, script2, evs) →
      (∀ (k : List Char × Option String) (r : ChunkResultD),
        chunkCacheLookup cache k = some r → chunkCacheLookup cache2 k = some r) ∧
      List.Forall₂ (fun c r => chunkCacheLookup cache2 (c, sname) = some r)
        chunks results := by
  intro chunks
  induction chunks with
  | nil =>
      intro cache script sname results tt tc cache2 script2 evs h
      simp only [analyze_chunks_loop, Prod.mk.injEq, Except.ok.injEq] at h
      obtain ⟨⟨hres, _, _⟩, hc, _, _⟩ := h
      subst hres
      subst hc
      exact ⟨fun k r hk => hk, List.Forall₂.nil⟩
  | cons c cs ih =>
      intro cache script sname results tt tc cache2 script2 evs h
      rw [analyze_chunks_loop] at h
      rcases hac : analyze_chunk cfg parse cache script c sname with
        ⟨out, cacheA, scriptA, evA⟩
      rw [hac] at h
      cases out with
      | error e => simp at h
      | ok r =>
          dsimp only at h
          rcases hrec : analyze_chunks_loop cfg parse cacheA scriptA cs sname with
            ⟨outR, cacheB, scriptB, evsB⟩
          rw [hrec] at h
          cases outR with
          | error e => simp at h
          | ok triple =>
              rcases triple with ⟨rs, tt2, tc2⟩
              simp only [Prod.mk.injEq, Except.ok.injEq] at h
              obtain ⟨⟨hres, _, _⟩, hc, _, _⟩ := h
              subst hres
              subst hc
              obtain ⟨ihmono, ihforall⟩ := ih cacheA scriptA sname rs tt2 tc2
                cacheB scriptB evsB (by rw [hrec])
              have hstore : chunkCacheLookup cacheA (c, sname) = some r :=
                analyze_chunk_stores cfg parse cache script c sname r cacheA
                  scriptA evA hen hac
              have hmono : ∀ (k : List Char × Option String) (r2 : ChunkResultD),
                  chunkCacheLookup cache k = some r2 →
                  chunkCacheLookup cacheB k = some r2 :=
                fun k r2 hk => ihmono k r2
                  (analyze_chunk_mono cfg parse cache script c sname (.ok r)
                    cacheA scriptA evA hac k r2 hk)
              exact ⟨hmono, List.Forall₂.cons (ihmono _ r hstore) ihforall⟩

theorem analyze_chunks_loop_rerun (cfg : AnalysisConfig)
    (parse : String → ChunkResultD) (hen : cfg.enable_caching = true) :
    ∀ (chunks : List (List Char)) (results : List ChunkResultD)
      (cache : ChunkCache) (script : Script) (sname : Option String),
      List.Forall₂ (fun c r => chunkCacheLookup cache (c, sname) = some r)
        chunks results →
      analyze_chunks_loop cfg parse cache script chunks sname =
        (.ok (results, (results.map (fun r => r.tokens_used)).sum,
          (results.map (fun r => r.cost)).sum), cache, script, []) := by
  intro chunks
  induction chunks with
  | nil =>
      intro results cache script sname hf
      cases hf
      simp [analyze_chunks_loop]
  | cons c cs ih =>
      intro results cache script sname hf
      cases hf with
      | cons hcr hrest =>
          rename_i r rs
          have hchunk : analyze_chunk cfg parse cache script c sname =
              (.ok r, cache, script, []) := by
            unfold analyze_chunk
            dsimp only
            rw [if_pos hen, hcr]
          rw [analyze_chunks_loop, hchunk]
          dsimp only
          rw [ih rs cache script sname hrest]
          simp

/-- C10 (confirmed, implicit): a cached chunk result's stored
`tokens_used`/`cost` are still added to the running totals, so re-running
the same analysis entirely from the populated cache (with any script —
no chunk LLM calls happen) reports exactly the same `total_tokens` and
`total_cost` as the original run. -/
theorem claim_C10 (cfg : AnalysisConfig) (parse : String → ChunkResultD)
    (chunks : List (List Char)) (sname : Option String) (script : Script)
    (at1 : ℚ) (mu1 : String) (res1 : AnalysisResultD) (cache1 : ChunkCache)
    (script1 : Script) (evs1 : List AEvent)
    (hen : cfg.enable_caching = true)
    (h1 : analyze_subtitle_core cfg parse [] script chunks sname at1 mu1 =
      (.ok res1, cache1, script1, evs1)) :
    ∀ (script2 : Script) (at2 : ℚ) (mu2 : String),
      ∃ (res2 : AnalysisResultD) (cache2 : ChunkCache) (script3 : Script)
        (evs2 : List AEvent),
        analyze_subtitle_core cfg parse cache1 script2 chunks sname at2 mu2 =
          (.ok res2, cache2, script3, evs2) ∧
        res2.total_tokens = res1.total_tokens ∧
        res2.total_cost = res1.total_cost := by
  intro script2 at2 mu2
  unfold analyze_subtitle_core at h1
  rcases hloop : analyze_chunks_loop cfg parse [] script chunks sname with
    ⟨out, cacheA, scriptA, evsA⟩
  rw [hloop] at h1
  cases out with
  | error e => simp at h1
  | ok triple =>
      rcases triple with ⟨results, tt, tc⟩
      dsimp only at h1
      rcases hm : merge_analysis_results cfg scriptA results with
        ⟨merged, scriptB, evB⟩
      rw [hm] at h1
      simp only [Prod.mk.injEq, Except.ok.injEq] at h1
      obtain ⟨hres1, hcache1, _, _⟩ := h1
      obtain ⟨httot, hctot⟩ := analyze_chunks_loop_totals cfg parse chunks []
        script sname results tt tc cacheA scriptA evsA (by rw [hloop])
      obtain ⟨_, hforall⟩ := analyze_chunks_loop_cached cfg parse hen chunks
        [] script sname results tt tc cacheA scriptA evsA (by rw [hloop])
      have hforall1 : List.Forall₂
          (fun c r => chunkCacheLookup cache1 (c, sname) = some r) chunks results := by
        rw [← hcache1]
        exact hforall
      have hrerun := analyze_chunks_loop_rerun cfg parse hen chunks results
        cache1 script2 sname hforall1
      unfold analyze_subtitle_core
      rw [hrerun]
      dsimp only
      rcases hm2 : merge_analysis_results cfg script2 results with
        ⟨merged2, scriptC, evC⟩
      refine ⟨_, _, _, _, rfl, ?_, ?_⟩
      · rw [← hres1]
        dsimp only
        rw [httot]
      · rw [← hres1]
        dsimp only
        rw [hctot]

theorem claim_C10_witness :
    ∃ (res2 : AnalysisResultD) (cache2 : ChunkCache) (script3 : Script)
      (evs2 : List AEvent),
      analyze_subtitle_core {} parseSummaryOnly
        [(("c1".data, none), ⟨"A", [], [], [], [], 10, 1⟩),
         (("c2".data, none), ⟨"B", [], [], [], [], 20, 2⟩)]
        [] ["c1".data, "c2".data] none 5 "m2" =
        (.ok res2, cache2, script3, evs2) ∧
      res2.total_tokens =
        (⟨"A", [], [], [], [], 10 + (20 + 0), 1 + (2 + 0), 0, "m", 2⟩ :
          AnalysisResultD).total_tokens ∧
      res2.total_cost =
        (⟨"A", [], [], [], [], 10 + (20 + 0), 1 + (2 + 0), 0, "m", 2⟩ :
          AnalysisResultD).total_cost :=
  claim_C10 {} parseSummaryOnly ["c1".data, "c2".data] none
    [.ok "A" 10 1, .ok "B" 20 2, .err] 0 "m"
    ⟨"A", [], [], [], [], 10 + (20 + 0), 1 + (2 + 0), 0, "m", 2⟩
    [(("c1".data, none), ⟨"A", [], [], [], [], 10, 1⟩),
     (("c2".data, none), ⟨"B", [], [], [], [], 20, 2⟩)]
    [] [.llmCall, .llmCall, .llmCall] rfl rfl [] 5 "m2"

/-! ## Claim C1 -/

theorem analyze_chunk_no_quota_event (cfg : AnalysisConfig)
    (parse : String → ChunkResultD) (cache : ChunkCache) (script : Script)
    (c : List Char) (sname : Option String) :
    AEvent.quotaCheck ∉ (analyze_chunk cfg parse cache script c sname).2.2.2 := by
  unfold analyze_chunk
  dsimp only
  rcases hm : (if cfg.enable_caching = true then chunkCacheLookup cache (c, sname)
      else none) with _ | r0
  · cases script with
    | nil => simp
    | cons o rest =>
        cases o with
        | ok rc rt rco => simp
        | err => simp
  · simp

theorem analyze_chunks_loop_no_quota_event (cfg : AnalysisConfig)
    (parse : String → ChunkResultD) :
    ∀ (chunks : List (List Char)) (cache : ChunkCache) (script : Script)
      (sname : Option String),
      AEvent.quotaCheck ∉
        (analyze_chunks_loop cfg parse cache script chunks sname).2.2.2 := by
  intro chunks
  induction chunks with
  | nil =>
      intro cache script sname
      simp [analyze_chunks_loop]
  | cons c cs ih =>
      intro cache script sname
      rw [analyze_chunks_loop]
      rcases hac : analyze_chunk cfg parse cache script c sname with
        ⟨out, cacheA, scriptA, evA⟩
      have hev : AEvent.quotaCheck ∉ evA := by
        have := analyze_chunk_no_quota_event cfg parse cache script c sname
        rw [hac] at this
        exact this
      cases out with
      | error e =>
          dsimp only
          exact hev
      | ok r =>
          dsimp only
          rcases hrec : analyze_chunks_loop cfg parse cacheA scriptA cs sname with
            ⟨outR, cacheB, scriptB, evsB⟩
          have hevs : AEvent.quotaCheck ∉ evsB := by
            have := ih cacheA scriptA sname
            rw [hrec] at this
            exact this
          cases outR with
          | error e =>
              dsimp only
              rw [List.mem_append]
              push_neg
              exact ⟨hev, hevs⟩
          | ok triple =>
              rcases triple with ⟨rs, tt2, tc2⟩
              dsimp only
              rw [List.mem_append]
              push_neg
              exact ⟨hev, hevs⟩

/-- C1 (amended): `ContentAnalyzer`'s per-chunk analyze flow performs NO
quota check at all (its trace never contains a quota-check event; the
frozen claim of a per-chunk `check_limit` gate is refuted by the
counterexample).  The only quota gate is one whole-request check in
`AnalysisService.analyze_subtitle_content`, on the estimated token count
of the entire content against the daily window, issued before any LLM
call: whenever it does not return true the request aborts with a quota
error, touching neither the cache nor the script (no network spend). -/
theorem claim_C1 :
    (∀ (cfg : AnalysisConfig) (parse : String → ChunkResultD)
        (cache : ChunkCache) (script : Script) (chunks : List (List Char))
        (sname : Option String),
      AEvent.quotaCheck ∉
        (analyze_chunks_loop cfg parse cache script chunks sname).2.2.2) ∧
    (∀ (mgr : TokenManager) (cfg : AnalysisConfig)
        (parse : String → ChunkResultD) (pre : String → String)
        (cache : ChunkCache) (script : Script) (content : String)
        (sname : Option String) (analysis_time : ℚ) (model_used : String)
        (now : ℚ),
      check_limit mgr (service_estimate_tokens content)
        (estimate_cost (service_estimate_tokens content) "gpt-3.5-turbo")
        .daily now ≠ some true →
      analyze_subtitle_content mgr cfg parse pre cache script content sname
        analysis_time model_used now =
        (.error .quotaExceeded, mgr, cache, script, [.quotaCheck])) := by
  constructor
  · intro cfg parse cache script chunks sname
    exact analyze_chunks_loop_no_quota_event cfg parse chunks cache script sname
  · intro mgr cfg parse pre cache script content sname analysis_time model_used now h
    unfold analyze_subtitle_content
    dsimp only
    rcases hch : check_limit mgr (service_estimate_tokens content)
        (estimate_cost (service_estimate_tokens content) "gpt-3.5-turbo")
        .daily now with _ | b
    · rfl
    · cases b with
      | false => rfl
      | true => exact absurd hch h

/-- C1 as frozen is false: with a token manager whose daily ceiling is 0
(so any per-chunk `check_limit` would return false), the `ContentAnalyzer`
flow on an uncached chunk still issues the LLM call and completes — its
trace contains an LLM call and no quota check whatsoever. -/
theorem claim_C1_counterexample :
    check_limit (mkTokenManager 0 10) 5 1 .daily 50 = some false ∧
    (∃ res : AnalysisResultD, (analyze_subtitle_core {} parseSummaryOnly []
      [.ok "x" 5 1] ["c".data] none 0 "m").1 = .ok res) ∧
    AEvent.llmCall ∈ (analyze_subtitle_core {} parseSummaryOnly []
      [.ok "x" 5 1] ["c".data] none 0 "m").2.2.2 ∧
    AEvent.quotaCheck ∉ (analyze_subtitle_core {} parseSummaryOnly []
      [.ok "x" 5 1] ["c".data] none 0 "m").2.2.2 := by
  refine ⟨by decide, ⟨_, rfl⟩, by decide, by decide⟩

theorem claim_C1_witness :
    analyze_subtitle_content (mkTokenManager 0 10) {} parseSummaryOnly id []
      [] "hello world content" none 0 "m" 50 =
      (.error .quotaExceeded, mkTokenManager 0 10, [], [], [.quotaCheck]) :=
  claim_C1.2 (mkTokenManager 0 10) {} parseSummaryOnly id [] []
    "hello world content" none 0 "m" 50 (by decide)
